import Mathlib

/-!
Verification of the incremental state-synchronization publisher implemented in
`src/libutil/logging-diffs.cc` (`DiffLogger`).  The development shallowly embeds:

* the JSON tree values used for snapshots (`JVal`, mirroring `nlohmann::json`
  with its sorted object keys),
* the diff / patch engine (`diff`, `applyPatch`; the vendored `nlohmann::json`
  diff and patch algorithms are not part of the source snapshot, so they are
  modelled from the specification of the Diff Engine: minimal path-addressed
  add / remove / replace operations, recursing into nested mappings and
  sequences),
* the logger state model (`NixBuildState`, `ActivityState`, `NixMessage`), its
  JSON rendering, and
* the `DiffLogger` mutators and publisher lifecycle as a sequential event step
  function (`stepEvent`, `runEvents`).
-/

namespace NixDiff

/-- JSON tree value.  Object fields are kept as an association list; the
embedding maintains `nlohmann::json`'s invariant that object keys are strictly
sorted (see `WF`). -/
inductive JVal where
  | null
  | bool (b : Bool)
  | num (n : Int)
  | str (s : String)
  | arr (xs : List JVal)
  | obj (kvs : List (String × JVal))

mutual

/-- Decidable structural equality on JSON values (deep equality, as
`operator==` on `nlohmann::json`). -/
def jdecEq : (a b : JVal) → Decidable (a = b)
  | .null, .null => isTrue rfl
  | .null, .bool _ => isFalse (fun h => JVal.noConfusion h)
  | .null, .num _ => isFalse (fun h => JVal.noConfusion h)
  | .null, .str _ => isFalse (fun h => JVal.noConfusion h)
  | .null, .arr _ => isFalse (fun h => JVal.noConfusion h)
  | .null, .obj _ => isFalse (fun h => JVal.noConfusion h)
  | .bool _, .null => isFalse (fun h => JVal.noConfusion h)
  | .bool a, .bool b =>
    match decEq a b with
    | isTrue h => isTrue (by rw [h])
    | isFalse h => isFalse (fun hh => h (by injection hh))
  | .bool _, .num _ => isFalse (fun h => JVal.noConfusion h)
  | .bool _, .str _ => isFalse (fun h => JVal.noConfusion h)
  | .bool _, .arr _ => isFalse (fun h => JVal.noConfusion h)
  | .bool _, .obj _ => isFalse (fun h => JVal.noConfusion h)
  | .num _, .null => isFalse (fun h => JVal.noConfusion h)
  | .num _, .bool _ => isFalse (fun h => JVal.noConfusion h)
  | .num a, .num b =>
    match decEq a b with
    | isTrue h => isTrue (by rw [h])
    | isFalse h => isFalse (fun hh => h (by injection hh))
  | .num _, .str _ => isFalse (fun h => JVal.noConfusion h)
  | .num _, .arr _ => isFalse (fun h => JVal.noConfusion h)
  | .num _, .obj _ => isFalse (fun h => JVal.noConfusion h)
  | .str _, .null => isFalse (fun h => JVal.noConfusion h)
  | .str _, .bool _ => isFalse (fun h => JVal.noConfusion h)
  | .str _, .num _ => isFalse (fun h => JVal.noConfusion h)
  | .str a, .str b =>
    match decEq a b with
    | isTrue h => isTrue (by rw [h])
    | isFalse h => isFalse (fun hh => h (by injection hh))
  | .str _, .arr _ => isFalse (fun h => JVal.noConfusion h)
  | .str _, .obj _ => isFalse (fun h => JVal.noConfusion h)
  | .arr _, .null => isFalse (fun h => JVal.noConfusion h)
  | .arr _, .bool _ => isFalse (fun h => JVal.noConfusion h)
  | .arr _, .num _ => isFalse (fun h => JVal.noConfusion h)
  | .arr _, .str _ => isFalse (fun h => JVal.noConfusion h)
  | .arr xs, .arr ys =>
    match jdecEqArr xs ys with
    | isTrue h => isTrue (by rw [h])
    | isFalse h => isFalse (fun hh => h (by injection hh))
  | .arr _, .obj _ => isFalse (fun h => JVal.noConfusion h)
  | .obj _, .null => isFalse (fun h => JVal.noConfusion h)
  | .obj _, .bool _ => isFalse (fun h => JVal.noConfusion h)
  | .obj _, .num _ => isFalse (fun h => JVal.noConfusion h)
  | .obj _, .str _ => isFalse (fun h => JVal.noConfusion h)
  | .obj _, .arr _ => isFalse (fun h => JVal.noConfusion h)
  | .obj xs, .obj ys =>
    match jdecEqObj xs ys with
    | isTrue h => isTrue (by rw [h])
    | isFalse h => isFalse (fun hh => h (by injection hh))

def jdecEqArr : (xs ys : List JVal) → Decidable (xs = ys)
  | [], [] => isTrue rfl
  | [], _ :: _ => isFalse (fun h => List.noConfusion h)
  | _ :: _, [] => isFalse (fun h => List.noConfusion h)
  | x :: xs, y :: ys =>
    match jdecEq x y with
    | isFalse h1 => isFalse (fun hh => h1 (by injection hh))
    | isTrue h1 =>
      match jdecEqArr xs ys with
      | isTrue h2 => isTrue (by rw [h1, h2])
      | isFalse h2 => isFalse (fun hh => h2 (by injection hh))

def jdecEqObj : (xs ys : List (String × JVal)) → Decidable (xs = ys)
  | [], [] => isTrue rfl
  | [], _ :: _ => isFalse (fun h => List.noConfusion h)
  | _ :: _, [] => isFalse (fun h => List.noConfusion h)
  | (k1, v1) :: xs, (k2, v2) :: ys =>
    match decEq k1 k2 with
    | isFalse h0 =>
      isFalse (fun hh => h0 (by injection hh with h1 h2; injection h1))
    | isTrue h0 =>
      match jdecEq v1 v2 with
      | isFalse h1 =>
        isFalse (fun hh => h1 (by injection hh with ha hb; injection ha))
      | isTrue h1 =>
        match jdecEqObj xs ys with
        | isTrue h2 => isTrue (by rw [h0, h1, h2])
        | isFalse h2 => isFalse (fun hh => h2 (by injection hh))

end

instance : DecidableEq JVal := jdecEq

/-- Lexicographic byte-wise strict order on character lists, mirroring
`std::string::operator<` which orders the keys of `std::map<std::string, _>`
inside `nlohmann::json` objects. -/
def strLtL : List Char → List Char → Bool
  | [], [] => false
  | [], _ :: _ => true
  | _ :: _, [] => false
  | a :: as, b :: bs =>
    if a.toNat < b.toNat then true
    else if b.toNat < a.toNat then false
    else strLtL as bs

/-- Strict order on strings used for JSON object keys. -/
def keyLt (a b : String) : Bool := strLtL a.data b.data

/-- Look up a key in a JSON object (association list), first match. -/
def objGet : List (String × JVal) → String → Option JVal
  | [], _ => none
  | (k', v) :: rest, k => if k' = k then some v else objGet rest k

/-- Insert-or-assign on a JSON object, keeping keys sorted (the behaviour of
`parent[key] = value` on a `nlohmann::json` object, whose representation is a
`std::map` ordered by `std::string::operator<`). -/
def objSetL : List (String × JVal) → String → JVal → List (String × JVal)
  | [], k, v => [(k, v)]
  | (k', v') :: rest, k, v =>
    if k = k' then (k, v) :: rest
    else if keyLt k k' = true then (k, v) :: (k', v') :: rest
    else (k', v') :: objSetL rest k v

/-- Erase a key from a JSON object (first match; `map::erase`). -/
def objRemoveL : List (String × JVal) → String → List (String × JVal)
  | [], _ => []
  | (k', v') :: rest, k => if k' = k then rest else (k', v') :: objRemoveL rest k

/-- Array element lookup. -/
def nthOpt : List JVal → Nat → Option JVal
  | [], _ => none
  | x :: _, 0 => some x
  | _ :: xs, n+1 => nthOpt xs n

/-- Replace the element at an index (in-place array write). -/
def setAt : List JVal → Nat → JVal → List JVal
  | [], _, _ => []
  | _ :: xs, 0, v => v :: xs
  | x :: xs, n+1, v => x :: setAt xs n v

/-- Insert an element before an index (`array::insert`). -/
def insertAt : List JVal → Nat → JVal → List JVal
  | xs, 0, v => v :: xs
  | [], _+1, v => [v]
  | x :: xs, n+1, v => x :: insertAt xs n v

/-- Erase the element at an index (`array::erase`). -/
def eraseAt : List JVal → Nat → List JVal
  | [], _ => []
  | _ :: xs, 0 => xs
  | x :: xs, n+1 => x :: eraseAt xs n

/-- `k` is strictly below every key in the list. -/
def allKeyLt (k : String) : List String → Bool
  | [] => true
  | k' :: rest => keyLt k k' && allKeyLt k rest

/-- The key list is strictly sorted. -/
def sortedKeys : List String → Bool
  | [] => true
  | k :: rest => allKeyLt k rest && sortedKeys rest

mutual

/-- Well-formedness of a JSON value: every object has strictly sorted keys.
All values produced by `nlohmann::json` satisfy this, since objects are
represented as `std::map<std::string, json>`. -/
def WF : JVal → Bool
  | .null => true
  | .bool _ => true
  | .num _ => true
  | .str _ => true
  | .arr xs => WFList xs
  | .obj kvs => sortedKeys (kvs.map Prod.fst) && WFKVs kvs

def WFList : List JVal → Bool
  | [] => true
  | x :: xs => WF x && WFList xs

def WFKVs : List (String × JVal) → Bool
  | [] => true
  | kv :: rest => WF kv.2 && WFKVs rest

end

/-- One segment of a JSON pointer path (an object key or an array index). -/
inductive Seg where
  | key (k : String)
  | idx (n : Nat)
deriving DecidableEq

/-- A single JSON-Patch operation, path-addressed, as produced by the Diff
Engine (`json::diff`) and consumed by the patch application (`json::patch`). -/
inductive PatchOp where
  | add (path : List Seg) (v : JVal)
  | remove (path : List Seg)
  | replace (path : List Seg) (v : JVal)
deriving DecidableEq

/-- The action performed at the target of a patch operation's path. -/
inductive LeafAct where
  | addA (v : JVal)
  | removeA
  | replaceA (v : JVal)

/-- Apply a leaf action to the parent container (`j`) at the final path
segment, with the bounds and existence checks of `json::patch`:
`add` on an object is insert-or-assign, on an array an insert with
`index ≤ size`; `remove` and `replace` require the target to exist. -/
def applyLeaf : JVal → Seg → LeafAct → Option JVal
  | .obj kvs, .key k, .addA v => some (.obj (objSetL kvs k v))
  | .obj kvs, .key k, .removeA =>
    if (objGet kvs k).isSome then some (.obj (objRemoveL kvs k)) else none
  | .obj kvs, .key k, .replaceA v =>
    if (objGet kvs k).isSome then some (.obj (objSetL kvs k v)) else none
  | .arr xs, .idx n, .addA v =>
    if n ≤ xs.length then some (.arr (insertAt xs n v)) else none
  | .arr xs, .idx n, .removeA =>
    if n < xs.length then some (.arr (eraseAt xs n)) else none
  | .arr xs, .idx n, .replaceA v =>
    if n < xs.length then some (.arr (setAt xs n v)) else none
  | _, _, _ => none

/-- Navigate along the path and apply the leaf action, failing (as
`json::patch` throws) when the path does not resolve. -/
def navApply : JVal → List Seg → LeafAct → Option JVal
  | _, [], .addA v => some v
  | _, [], .replaceA v => some v
  | _, [], .removeA => none
  | j, [s], act => applyLeaf j s act
  | .obj kvs, .key k :: s :: rest, act =>
    match objGet kvs k with
    | some c =>
      match navApply c (s :: rest) act with
      | some c' => some (.obj (objSetL kvs k c'))
      | none => none
    | none => none
  | .arr xs, .idx n :: s :: rest, act =>
    match nthOpt xs n with
    | some c =>
      match navApply c (s :: rest) act with
      | some c' => some (.arr (setAt xs n c'))
      | none => none
    | none => none
  | _, _ :: _ :: _, _ => none

/-- Apply one patch operation. -/
def applyOp : JVal → PatchOp → Option JVal
  | j, .add p v => navApply j p (.addA v)
  | j, .remove p => navApply j p .removeA
  | j, .replace p v => navApply j p (.replaceA v)

/-- Apply a whole patch, operation by operation, in order (`json::patch`). -/
def applyPatch : JVal → List PatchOp → Option JVal
  | j, [] => some j
  | j, op :: ops =>
    match applyOp j op with
    | some j' => applyPatch j' ops
    | none => none

/-- Prefix one path segment onto an operation (the diff recursion emits
operations relative to the current node and prefixes the path on return). -/
def consSeg (s : Seg) : PatchOp → PatchOp
  | .add p v => .add (s :: p) v
  | .remove p => .remove (s :: p)
  | .replace p v => .replace (s :: p) v

/-- Operations whose root form the diff can produce: an operation with an
empty path is always a whole-document `replace`. -/
def rootOk : PatchOp → Bool
  | .add [] _ => false
  | .remove [] => false
  | _ => true

/-- The `add` operations appending the remaining target elements at the end
of an array, at consecutive indices starting from `i`. -/
def addsFrom : Nat → List JVal → List PatchOp
  | _, [] => []
  | i, y :: ys => .add [.idx i] y :: addsFrom (i+1) ys

/-- The `remove` operations deleting the last `n` source elements, emitted in
descending index order (so every index is valid when applied in sequence). -/
def removesDesc : Nat → Nat → List PatchOp
  | _, 0 => []
  | i, n+1 => .remove [.idx (i + n)] :: removesDesc i n

/-- Second pass of the object diff: `add` operations for the keys present in
the target but absent from the source, in target (sorted) key order. -/
def diffAdds (asrc : List (String × JVal)) : List (String × JVal) → List PatchOp
  | [] => []
  | (k, w) :: rest =>
    (if (objGet asrc k).isSome then [] else [PatchOp.add [Seg.key k] w]) ++
      diffAdds asrc rest

mutual

/-- The Diff Engine.  Modelled from the spec: "`diff(a, b) -> Patch`: produces
the minimal ordered sequence of path-addressed add/remove/replace operations
transforming `a` into `b` … it must recurse into nested mappings/sequences
rather than always replacing whole subtrees" — this is the algorithm of the
vendored `nlohmann::json::diff`, whose source is not part of this snapshot.
Equal values give the empty patch; arrays are diffed element-wise on the
common prefix, followed by removals of excess source elements (descending)
or additions of excess target elements; objects are diffed per key (first
pass over source keys with recursive diff / removal, second pass adding the
target-only keys); everything else is a whole-value `replace`. -/
def diff : JVal → JVal → List PatchOp
  | .arr xs, .arr ys =>
    if JVal.arr xs = JVal.arr ys then [] else diffArr xs ys 0
  | .obj akvs, .obj bkvs =>
    if JVal.obj akvs = JVal.obj bkvs then []
    else diffObj bkvs akvs ++ diffAdds akvs bkvs
  | a, b => if a = b then [] else [.replace [] b]

def diffArr : List JVal → List JVal → Nat → List PatchOp
  | x :: xs, y :: ys, i => (diff x y).map (consSeg (.idx i)) ++ diffArr xs ys (i+1)
  | [], ys, i => addsFrom i ys
  | x :: xs, [], i => removesDesc i (x :: xs).length

def diffObj (btgt : List (String × JVal)) : List (String × JVal) → List PatchOp
  | [] => []
  | (k, v) :: rest =>
    (match objGet btgt k with
     | some w => (diff v w).map (consSeg (.key k))
     | none => [PatchOp.remove [Seg.key k]]) ++ diffObj btgt rest

end

/-- The source object after the first diff pass: keys shared with the target
keep the target's value, keys absent from the target are dropped. -/
def procd (btgt : List (String × JVal)) : List (String × JVal) → List (String × JVal)
  | [] => []
  | (k, _) :: rest =>
    match objGet btgt k with
    | some w => (k, w) :: procd btgt rest
    | none => procd btgt rest

/-- One logger field value (`Logger::Field`): an unsigned integer or a
string. -/
inductive LField where
  | fInt (n : Nat)
  | fStr (s : String)
deriving DecidableEq

/-- The per-activity record (`ActivityState` in `logging-diffs.hh`): type tag,
text label, fields, parent id, and the completion flag (initially false, per
the spec; the constructor stores type, text, fields and parent). -/
structure ActivityState where
  is_complete : Bool
  type : Nat
  text : String
  fields : List LField
  parent : Nat
deriving DecidableEq

/-- A trace frame as serialized by `DiffLogger::logEI`: the hint text plus the
frame's own optional position (rendered as `line` / `column` / `file`, each
`null` when the position is absent, per `pos_to_json`). -/
structure StackFrame where
  raw_msg : String
  line : Option Nat
  column : Option Nat
  file : Option String
deriving DecidableEq

/-- One logged message (`NixMessage`): severity level, optional position
(line / column / printed file, all set or all cleared together by
`add_pos_to_message`), optional trace frame list, formatted text and raw
text. -/
structure NixMessage where
  level : Nat
  line : Option Nat
  column : Option Nat
  file : Option String
  trace : Option (List StackFrame)
  msg : String
  raw_msg : String
deriving DecidableEq

/-- A default-constructed `NixMessage` (all optionals absent, empty texts,
default level). -/
def defaultMessage : NixMessage :=
  { level := 0, line := none, column := none, file := none, trace := none,
    msg := "", raw_msg := "" }

/-- The State Model (`NixBuildState`): the activity map (`std::map` keyed by
the numeric activity id, kept sorted) and the append-only message list. -/
structure NixBuildState where
  activities : List (Nat × ActivityState)
  messages : List NixMessage
deriving DecidableEq

/-- A source position (`AbstractPos`): line, column, and the printed origin
used for the `file` field. -/
structure EPos where
  line : Nat
  column : Nat
  file : String
deriving DecidableEq

/-- One trace item of a structured error: hint text and optional position. -/
structure ETrace where
  hint : String
  pos : Option EPos
deriving DecidableEq

/-- The structured-error value (`ErrorInfo`) at the boundary of this
component: level, raw message, optional position, ordered trace list
(outermost first). -/
structure ErrorInfo where
  level : Nat
  msg : String
  errPos : Option EPos
  traces : List ETrace
deriving DecidableEq

/-- Rendering of one field value inside the `fields` array
(`addFields`: integers and strings are pushed as JSON scalars). -/
def fieldToJson : LField → JVal
  | .fInt n => .num n
  | .fStr s => .str s

/-- Conditionally insert a member into a JSON object (the pattern of the
`to_json` functions: `if (cond) j["k"] = v;`). -/
def optInsert (o : List (String × JVal)) (k : String) (v : Option JVal) :
    List (String × JVal) :=
  match v with
  | some j => objSetL o k j
  | none => o

/-- JSON rendering of an activity (`to_json(json &, const ActivityState &)`):
`is_complete`, `type`, `text` are set in that order, then `addFields` adds a
`fields` array only when the field list is non-empty. -/
def activityToJson (a : ActivityState) : JVal :=
  .obj (optInsert
    (objSetL (objSetL (objSetL [] "is_complete" (.bool a.is_complete))
      "type" (.num a.type)) "text" (.str a.text))
    "fields"
    (if a.fields.isEmpty then none
     else some (.arr (a.fields.map fieldToJson))))

def optNatJson : Option Nat → JVal
  | some n => .num n
  | none => .null

def optStrJson : Option String → JVal
  | some s => .str s
  | none => .null

/-- JSON rendering of a trace frame (`logEI`'s loop body: `raw_msg` is set
first, then `pos_to_json` writes `line` / `column` / `file` as values or
nulls). -/
def frameToJson (f : StackFrame) : JVal :=
  .obj (objSetL (objSetL (objSetL (objSetL [] "raw_msg" (.str f.raw_msg))
    "line" (optNatJson f.line)) "column" (optNatJson f.column))
    "file" (optStrJson f.file))

/-- JSON rendering of a message (`to_json(json &, const NixMessage &)`):
`level` always; then `line` / `column` / `file` / `trace` when present and
`msg` / `raw_msg` when non-empty, inserted in the statement order of the
source. -/
def msgToJson (m : NixMessage) : JVal :=
  .obj (optInsert (optInsert (optInsert (optInsert (optInsert (optInsert
    (objSetL [] "level" (.num m.level))
    "line" (m.line.map (fun n => .num n)))
    "column" (m.column.map (fun c => .num c)))
    "file" (m.file.map (fun f => .str f)))
    "trace" (m.trace.map (fun t => .arr (t.map frameToJson))))
    "msg" (if m.msg.isEmpty then none else some (.str m.msg)))
    "raw_msg" (if m.raw_msg.isEmpty then none else some (.str m.raw_msg)))

/-- The activities object (`to_json(json &, const NixBuildState &)`): one
member per activity, keyed by the decimal rendering of its id; inserting into
the JSON object re-sorts the keys as strings. -/
def activitiesToJson (acts : List (Nat × ActivityState)) : List (String × JVal) :=
  acts.foldl (fun o kv => objSetL o (toString kv.1) (activityToJson kv.2)) []

/-- The Snapshot: JSON rendering of the whole State Model: `messages` is set
first, then the `activities` object (the JSON object keeps its members
sorted, so `activities` ends up first on the wire). -/
def stateToJson (s : NixBuildState) : JVal :=
  .obj (objSetL (objSetL [] "messages" (.arr (s.messages.map msgToJson)))
    "activities" (.obj (activitiesToJson s.activities)))

/-- Modelled from the spec: the formatted display text of a structured error
(the external renderer `showErrorInfo` from `error.hh` is not part of this
source snapshot; the spec says only that the Message's "formatted text, raw
text, level, and optional position are derived from the error").  We model
the formatted text as the error's message text; no claim depends on its exact
shape. -/
def showErrorInfoStr (ei : ErrorInfo) (_showTrace : Bool) : String := ei.msg

/-- One serialized trace frame of `logEI`: the hint string and the frame's
own optional position. -/
def traceToFrame (t : ETrace) : StackFrame :=
  { raw_msg := t.hint, line := t.pos.map EPos.line,
    column := t.pos.map EPos.column, file := t.pos.map EPos.file }

/-- The message appended by `DiffLogger::logEI`: level, formatted and raw
text, the error's optional position (`add_pos_to_message`), and — only when
the trace verbosity setting is enabled and the trace is non-empty — the trace
frames in reverse (innermost-first) order. -/
def buildErrMsg (showTrace : Bool) (ei : ErrorInfo) : NixMessage :=
  { level := ei.level
    line := ei.errPos.map EPos.line
    column := ei.errPos.map EPos.column
    file := ei.errPos.map EPos.file
    trace := if showTrace && !ei.traces.isEmpty
             then some ((ei.traces.reverse).map traceToFrame)
             else none
    msg := showErrorInfoStr ei showTrace
    raw_msg := ei.msg }

/-- Activity-map lookup (`activities.at(act)` / `find`). -/
def objGetA : List (Nat × ActivityState) → Nat → Option ActivityState
  | [], _ => none
  | (k, a) :: rest, id => if k = id then some a else objGetA rest id

/-- `std::map::insert`: insert sorted by id, and crucially a no-op when the
key is already present (the existing entry is kept). -/
def actInsert : List (Nat × ActivityState) → Nat → ActivityState →
    List (Nat × ActivityState)
  | [], id, a => [(id, a)]
  | (k, a') :: rest, id, a =>
    if id = k then (k, a') :: rest
    else if id < k then (id, a) :: (k, a') :: rest
    else (k, a') :: actInsert rest id a

/-- `stopActivity`: set `is_complete` on the matching activity; the
`std::out_of_range` catch makes a missing id a silent no-op. -/
def actComplete : List (Nat × ActivityState) → Nat → List (Nat × ActivityState)
  | [], _ => []
  | (k, a) :: rest, id =>
    if k = id then (k, { a with is_complete := true }) :: rest
    else (k, a) :: actComplete rest id

/-- `result`'s found branch: replace the fields of the matching activity. -/
def actSetFields : List (Nat × ActivityState) → Nat → List LField →
    List (Nat × ActivityState)
  | [], _, _ => []
  | (k, a) :: rest, id, fs =>
    if k = id then (k, { a with fields := fs }) :: rest
    else (k, a) :: actSetFields rest id fs

/-- Strictly ascending numeric keys (invariant of the `std::map` holding the
activities). -/
def allNatLt (k : Nat) : List Nat → Bool
  | [] => true
  | k' :: rest => decide (k < k') && allNatLt k rest

def sortedNats : List Nat → Bool
  | [] => true
  | k :: rest => allNatLt k rest && sortedNats rest

/-- The shared mutable state of one `DiffLogger` instance: the State Model,
the `last_sent` JSON snapshot (initially `nullptr`, i.e. JSON null), the two
flags `exitPeriodicAction` and `exited`, and the (constant) trace verbosity
setting `loggerSettings.showTrace`. -/
structure LoggerState where
  state : NixBuildState
  last_sent : JVal
  exitPeriodicAction : Bool
  exited : Bool
  showTrace : Bool
deriving DecidableEq

/-- The logger state right after construction. -/
def initLogger (showTrace : Bool) : LoggerState :=
  { state := { activities := [], messages := [] }, last_sent := .null,
    exitPeriodicAction := false, exited := false, showTrace := showTrace }

/-- One frame transmitted to the Downstream Sink by `write`: the full
baseline value (first transmission) or a diff patch (all later ones). -/
inductive Frame where
  | value (j : JVal)
  | patch (p : List PatchOp)
deriving DecidableEq

/-- Result of one event step: new state, frames written to the Downstream
Sink, and the result-types of warnings printed by `Logger::writeToStdout`
(the `result` catch branch), which bypass the sink's frame stream. -/
structure StepOut where
  st : LoggerState
  frames : List Frame
  warns : List Nat
deriving DecidableEq

/-- The events of one `DiffLogger` run, sequentialized (mutator calls are
serialized by the mutex; `initTick` is the unconditional first action of the
`periodicAction` thread, `tick` one later loop iteration). -/
inductive Event where
  | initTick
  | tick
  | logMsg (s : String)
  | logErr (ei : ErrorInfo)
  | start (id : Nat) (type : Nat) (text : String) (fields : List LField)
      (parent : Nat)
  | stopAct (id : Nat)
  | result (id : Nat) (type : Nat) (fields : List LField)
  | stop
deriving DecidableEq

/-- `sendLatestIfNecessary(Unlocked)`: compare the current snapshot with
`last_sent`; when different, transmit `json::diff(last_sent, current)` and
record the new snapshot as `last_sent`; when equal, transmit nothing. -/
def sendLatest (st : LoggerState) : LoggerState × List Frame :=
  let cur := stateToJson st.state
  if st.last_sent = cur then (st, [])
  else ({ st with last_sent := cur }, [Frame.patch (diff st.last_sent cur)])

/-- One step of the sequentialized `DiffLogger`:

* `initTick` — the first action of `periodicAction`: write the current
  snapshot as a full value and record it as `last_sent`;
* `tick` — one later loop iteration: `sendLatestIfNecessary`;
* `logMsg` — `log`: append a message holding only the formatted text, then
  flush immediately iff `exited` is set;
* `logErr` — `logEI`: append the message built from the error, then flush
  immediately iff `exited` is set;
* `start` — `startActivity`: `map::insert` (no overwrite on an existing id);
* `stopAct` — `stopActivity`: set the completion flag, silent no-op on an
  unknown id;
* `result` — `result`: replace the fields, or — on an unknown id — leave the
  state unchanged and print a warning via `writeToStdout`;
* `stop` — `stop()`: return immediately when `exitPeriodicAction` is already
  set; otherwise set it, join the loop, run one final
  `sendLatestIfNecessary`, and set `exited`. -/
def stepEvent (st : LoggerState) (e : Event) : StepOut :=
  match e with
  | .initTick =>
    let cur := stateToJson st.state
    ⟨{ st with last_sent := cur }, [Frame.value cur], []⟩
  | .tick =>
    let p := sendLatest st
    ⟨p.1, p.2, []⟩
  | .logMsg s =>
    let st1 := { st with state :=
      { st.state with messages := st.state.messages ++ [{ defaultMessage with msg := s }] } }
    if st1.exited then
      let p := sendLatest st1
      ⟨p.1, p.2, []⟩
    else ⟨st1, [], []⟩
  | .logErr ei =>
    let st1 := { st with state :=
      { st.state with messages := st.state.messages ++ [buildErrMsg st.showTrace ei] } }
    if st1.exited then
      let p := sendLatest st1
      ⟨p.1, p.2, []⟩
    else ⟨st1, [], []⟩
  | .start id ty text fields parent =>
    let acts := actInsert st.state.activities id ⟨false, ty, text, fields, parent⟩
    ⟨{ st with state := { st.state with activities := acts } }, [], []⟩
  | .stopAct id =>
    let acts := actComplete st.state.activities id
    ⟨{ st with state := { st.state with activities := acts } }, [], []⟩
  | .result id ty fields =>
    match objGetA st.state.activities id with
    | some _ =>
      let acts := actSetFields st.state.activities id fields
      ⟨{ st with state := { st.state with activities := acts } }, [], []⟩
    | none => ⟨st, [], [ty]⟩
  | .stop =>
    if st.exitPeriodicAction then ⟨st, [], []⟩
    else
      let p := sendLatest { st with exitPeriodicAction := true }
      ⟨{ p.1 with exited := true }, p.2, []⟩

/-- Run a sequence of events, concatenating the transmitted frames and the
warnings. -/
def runEvents (st : LoggerState) : List Event → StepOut
  | [] => ⟨st, [], []⟩
  | e :: es =>
    let o := stepEvent st e
    let r := runEvents o.st es
    ⟨r.st, o.frames ++ r.frames, o.warns ++ r.warns⟩

/-- Client-side replica reconstruction, continuing from the replica value
`cur`: every further frame must be a patch and is applied in arrival order. -/
def replayFrom (cur : JVal) : List Frame → Option JVal
  | [] => some cur
  | Frame.patch p :: rest =>
    match applyPatch cur p with
    | some c => replayFrom c rest
    | none => none
  | Frame.value _ :: _ => none

/-- Client-side replica reconstruction: the first transmitted frame is taken
as a full replace, every subsequent frame as a patch. -/
def replay : List Frame → Option JVal
  | Frame.value j :: rest => replayFrom j rest
  | _ => none

/-- The five Mutator events. -/
def isMutator : Event → Bool
  | .logMsg _ => true
  | .logErr _ => true
  | .start _ _ _ _ _ => true
  | .stopAct _ => true
  | .result _ _ _ => true
  | _ => false

-- ### Theorems ###

theorem strLtL_irrefl : ∀ l : List Char, strLtL l l = false
  | [] => rfl
  | a :: as => by simp [strLtL, strLtL_irrefl as]

theorem keyLt_irrefl (a : String) : keyLt a a = false := strLtL_irrefl a.data

theorem strLtL_asymm : ∀ l1 l2 : List Char,
    strLtL l1 l2 = true → strLtL l2 l1 = false
  | [], l2 => by cases l2 <;> simp [strLtL]
  | _ :: _, [] => by simp [strLtL]
  | a :: as, b :: bs => by
    simp only [strLtL]
    by_cases hab : a.toNat < b.toNat
    · have hba : ¬ b.toNat < a.toNat := by omega
      simp [hab, hba]
    · by_cases hba : b.toNat < a.toNat
      · simp [hab, hba]
      · simp only [hab, hba, if_false]
        exact strLtL_asymm as bs

theorem keyLt_asymm {a b : String} (h : keyLt a b = true) : keyLt b a = false :=
  strLtL_asymm a.data b.data h

theorem strLtL_trans : ∀ l1 l2 l3 : List Char,
    strLtL l1 l2 = true → strLtL l2 l3 = true → strLtL l1 l3 = true
  | [], l2, l3 => by
    cases l2 <;> cases l3 <;> simp [strLtL]
  | _ :: _, [], l3 => by simp [strLtL]
  | a :: as, b :: bs, [] => by
    simp [strLtL]
  | a :: as, b :: bs, c :: cs => by
    simp only [strLtL]
    intro h1 h2
    by_cases hab : a.toNat < b.toNat
    · by_cases hbc : b.toNat < c.toNat
      · have hac : a.toNat < c.toNat := by omega
        simp [hac]
      · by_cases hcb : c.toNat < b.toNat
        · rw [if_neg hbc, if_pos hcb] at h2
          exact absurd h2 (by simp)
        · have hac : a.toNat < c.toNat := by omega
          simp [hac]
    · by_cases hba : b.toNat < a.toNat
      · rw [if_neg hab, if_pos hba] at h1
        exact absurd h1 (by simp)
      · by_cases hbc : b.toNat < c.toNat
        · have hac : a.toNat < c.toNat := by omega
          simp [hac]
        · by_cases hcb : c.toNat < b.toNat
          · rw [if_neg hbc, if_pos hcb] at h2
            exact absurd h2 (by simp)
          · rw [if_neg hab, if_neg hba] at h1
            rw [if_neg hbc, if_neg hcb] at h2
            have hac : ¬ a.toNat < c.toNat := by omega
            have hca : ¬ c.toNat < a.toNat := by omega
            rw [if_neg hac, if_neg hca]
            exact strLtL_trans as bs cs h1 h2

theorem keyLt_trans {a b c : String} (h1 : keyLt a b = true)
    (h2 : keyLt b c = true) : keyLt a c = true :=
  strLtL_trans a.data b.data c.data h1 h2

theorem strLtL_antisymm : ∀ l1 l2 : List Char,
    strLtL l1 l2 = false → strLtL l2 l1 = false → l1 = l2
  | [], l2 => by cases l2 <;> simp [strLtL]
  | _ :: _, [] => by simp [strLtL]
  | a :: as, b :: bs => by
    simp only [strLtL]
    by_cases hab : a.toNat < b.toNat
    · simp [hab]
    · by_cases hba : b.toNat < a.toNat
      · simp [hab, hba]
      · simp only [hab, hba, if_false]
        intro h1 h2
        have h3 : a.toNat = b.toNat := by omega
        have hc : a = b := Char.ext (UInt32.ext h3)
        rw [hc, strLtL_antisymm as bs h1 h2]

theorem keyLt_antisymm {a b : String} (h1 : keyLt a b = false)
    (h2 : keyLt b a = false) : a = b := by
  have := strLtL_antisymm a.data b.data h1 h2
  cases a; cases b; simp_all

theorem keyLt_ne {a b : String} (h : keyLt a b = true) : a ≠ b := by
  intro he
  rw [he, keyLt_irrefl] at h
  exact Bool.false_ne_true h

theorem applyPatch_append (j : JVal) (l1 l2 : List PatchOp) :
    applyPatch j (l1 ++ l2) =
      (applyPatch j l1).bind fun j' => applyPatch j' l2 := by
  induction l1 generalizing j with
  | nil => simp [applyPatch]
  | cons op ops ih =>
    simp only [List.cons_append, applyPatch]
    cases applyOp j op with
    | none => rfl
    | some j' => exact ih j'

theorem objGet_some_mem {l : List (String × JVal)} {k : String} {v : JVal}
    (h : objGet l k = some v) : k ∈ l.map Prod.fst := by
  induction l with
  | nil => simp [objGet] at h
  | cons kv rest ih =>
    obtain ⟨k', v'⟩ := kv
    simp only [objGet] at h
    by_cases hk : k' = k
    · simp [hk]
    · simp only [hk, if_false] at h
      simp [ih h]

theorem objGet_not_mem {l : List (String × JVal)} {k : String}
    (h : k ∉ l.map Prod.fst) : objGet l k = none := by
  induction l with
  | nil => rfl
  | cons kv rest ih =>
    obtain ⟨k', v'⟩ := kv
    simp only [List.map_cons, List.mem_cons] at h
    push_neg at h
    simp only [objGet, Ne.symm h.1, if_false]
    exact ih h.2

theorem objGet_objSetL_self (l : List (String × JVal)) (k : String) (v : JVal) :
    objGet (objSetL l k v) k = some v := by
  induction l with
  | nil => simp [objSetL, objGet]
  | cons kv rest ih =>
    obtain ⟨k', v'⟩ := kv
    by_cases h1 : k = k'
    · simp only [objSetL, if_pos h1, objGet, eq_self_iff_true, ite_true]
    · by_cases h2 : keyLt k k' = true
      · simp only [objSetL, if_neg h1, if_pos h2, objGet, eq_self_iff_true, ite_true]
      · simp only [objSetL, if_neg h1, if_neg h2, objGet, if_neg (Ne.symm h1)]
        exact ih

theorem objSetL_objSetL (l : List (String × JVal)) (k : String) (v w : JVal) :
    objSetL (objSetL l k v) k w = objSetL l k w := by
  induction l with
  | nil => simp [objSetL]
  | cons kv rest ih =>
    obtain ⟨k', v'⟩ := kv
    by_cases h1 : k = k'
    · simp only [objSetL, if_pos h1, eq_self_iff_true, ite_true]
    · by_cases h2 : keyLt k k' = true
      · simp only [objSetL, if_neg h1, if_pos h2, eq_self_iff_true, ite_true]
      · simp only [objSetL, if_neg h1, if_neg h2, ih]

theorem allKeyLt_mem {k : String} {l : List String} (h : allKeyLt k l = true)
    {k' : String} (hm : k' ∈ l) : keyLt k k' = true := by
  induction l with
  | nil => simp at hm
  | cons x rest ih =>
    simp only [allKeyLt, Bool.and_eq_true] at h
    rcases List.mem_cons.mp hm with h1 | h1
    · rw [h1]; exact h.1
    · exact ih h.2 h1

theorem allKeyLt_of_lt {k k' : String} {l : List String}
    (hk : keyLt k k' = true) (h : allKeyLt k' l = true) : allKeyLt k l = true := by
  induction l with
  | nil => rfl
  | cons x rest ih =>
    simp only [allKeyLt, Bool.and_eq_true] at h ⊢
    exact ⟨keyLt_trans hk h.1, ih h.2⟩

theorem objSetL_of_get_eq {l : List (String × JVal)} {k : String} {v : JVal}
    (hs : sortedKeys (l.map Prod.fst) = true) (hget : objGet l k = some v) :
    objSetL l k v = l := by
  induction l with
  | nil => simp [objGet] at hget
  | cons kv rest ih =>
    obtain ⟨k', v'⟩ := kv
    simp only [List.map_cons, sortedKeys, Bool.and_eq_true] at hs
    simp only [objGet] at hget
    by_cases h1 : k' = k
    · rw [if_pos h1] at hget
      injection hget with hv
      rw [← h1, ← hv]
      simp only [objSetL, eq_self_iff_true, ite_true]
    · rw [if_neg h1] at hget
      have hmem := objGet_some_mem hget
      have hlt : keyLt k' k = true := allKeyLt_mem hs.1 hmem
      have h2 : ¬ k = k' := fun he => h1 he.symm
      have h3 : ¬ keyLt k k' = true := by
        intro hc
        rw [keyLt_asymm hc] at hlt
        exact Bool.false_ne_true hlt
      simp only [objSetL, if_neg h2, if_neg h3, ih hs.2 hget]

theorem allKeyLt_objSetL {k0 k : String} {l : List (String × JVal)} {v : JVal}
    (h : allKeyLt k0 (l.map Prod.fst) = true) (hk : keyLt k0 k = true) :
    allKeyLt k0 ((objSetL l k v).map Prod.fst) = true := by
  induction l with
  | nil =>
    simp only [objSetL, List.map_cons, List.map_nil, allKeyLt, Bool.and_eq_true]
    exact ⟨hk, trivial⟩
  | cons kv rest ih =>
    obtain ⟨k', v'⟩ := kv
    simp only [List.map_cons, allKeyLt, Bool.and_eq_true] at h
    by_cases h1 : k = k'
    · simp only [objSetL, if_pos h1, List.map_cons, allKeyLt, Bool.and_eq_true]
      exact ⟨hk, h.2⟩
    · by_cases h2 : keyLt k k' = true
      · simp only [objSetL, if_neg h1, if_pos h2, List.map_cons, allKeyLt,
          Bool.and_eq_true]
        exact ⟨hk, h.1, h.2⟩
      · simp only [objSetL, if_neg h1, if_neg h2, List.map_cons, allKeyLt,
          Bool.and_eq_true]
        exact ⟨h.1, ih h.2⟩

theorem objSetL_sorted {l : List (String × JVal)} {k : String} {v : JVal}
    (hs : sortedKeys (l.map Prod.fst) = true) :
    sortedKeys ((objSetL l k v).map Prod.fst) = true := by
  induction l with
  | nil => simp [objSetL, sortedKeys, allKeyLt]
  | cons kv rest ih =>
    obtain ⟨k', v'⟩ := kv
    simp only [List.map_cons, sortedKeys, Bool.and_eq_true] at hs
    by_cases h1 : k = k'
    · subst h1
      simp only [objSetL, eq_self_iff_true, ite_true, List.map_cons, sortedKeys,
        Bool.and_eq_true]
      exact ⟨hs.1, hs.2⟩
    · by_cases h2 : keyLt k k' = true
      · simp only [objSetL, if_neg h1, if_pos h2, List.map_cons, sortedKeys,
          allKeyLt, Bool.and_eq_true]
        exact ⟨⟨h2, allKeyLt_of_lt h2 hs.1⟩, hs.1, hs.2⟩
      · have h2f : keyLt k k' = false := by
          cases hkc : keyLt k k' with
          | false => rfl
          | true => exact absurd hkc h2
        have h3 : keyLt k' k = true := by
          cases hkk : keyLt k' k with
          | true => rfl
          | false => exact absurd (keyLt_antisymm h2f hkk) h1
        simp only [objSetL, if_neg h1, if_neg h2, List.map_cons, sortedKeys,
          Bool.and_eq_true]
        exact ⟨allKeyLt_objSetL hs.1 h3, ih hs.2⟩

theorem objGet_append_of_ne {pre : List (String × JVal)} {k : String}
    (h : ∀ p ∈ pre, p.1 ≠ k) (l : List (String × JVal)) :
    objGet (pre ++ l) k = objGet l k := by
  induction pre with
  | nil => rfl
  | cons kv rest ih =>
    obtain ⟨k', v'⟩ := kv
    have hne : k' ≠ k := h ⟨k', v'⟩ (by simp)
    simp only [List.cons_append, objGet, if_neg hne]
    exact ih (fun p hp => h p (by simp [hp]))

theorem objSetL_append_mid {pre : List (String × JVal)} {k : String}
    (h : ∀ p ∈ pre, keyLt p.1 k = true) (v w : JVal)
    (rest : List (String × JVal)) :
    objSetL (pre ++ (k, v) :: rest) k w = pre ++ (k, w) :: rest := by
  induction pre with
  | nil => simp only [List.nil_append, objSetL, eq_self_iff_true, ite_true]
  | cons kv pre' ih =>
    obtain ⟨k', v'⟩ := kv
    have hlt : keyLt k' k = true := h ⟨k', v'⟩ (by simp)
    have h1 : ¬ k = k' := fun he => (keyLt_ne hlt) he.symm
    have h2 : ¬ keyLt k k' = true := by
      intro hc
      rw [keyLt_asymm hc] at hlt
      exact Bool.false_ne_true hlt
    have ih' := ih (fun p hp => h p (by simp [hp]))
    simp only [List.cons_append, List.append_eq, objSetL, if_neg h1, if_neg h2, ih']

theorem objRemoveL_append_mid {pre : List (String × JVal)} {k : String}
    (h : ∀ p ∈ pre, p.1 ≠ k) (v : JVal) (rest : List (String × JVal)) :
    objRemoveL (pre ++ (k, v) :: rest) k = pre ++ rest := by
  induction pre with
  | nil => simp only [List.nil_append, objRemoveL, eq_self_iff_true, ite_true]
  | cons kv pre' ih =>
    obtain ⟨k', v'⟩ := kv
    have hne : k' ≠ k := h ⟨k', v'⟩ (by simp)
    have ih' := ih (fun p hp => h p (by simp [hp]))
    simp only [List.cons_append, List.append_eq, objRemoveL, if_neg hne, ih']

theorem nthOpt_append_self (pre : List JVal) (x : JVal) (t : List JVal) :
    nthOpt (pre ++ x :: t) pre.length = some x := by
  induction pre with
  | nil => rfl
  | cons y pre' ih => simpa [nthOpt] using ih

theorem setAt_append_self (pre : List JVal) (x y : JVal) (t : List JVal) :
    setAt (pre ++ x :: t) pre.length y = pre ++ y :: t := by
  induction pre with
  | nil => rfl
  | cons z pre' ih => simpa [setAt] using ih

theorem nthOpt_setAt_self {l : List JVal} {n : Nat} {x : JVal}
    (h : nthOpt l n = some x) (y : JVal) : nthOpt (setAt l n y) n = some y := by
  induction l generalizing n with
  | nil => simp [nthOpt] at h
  | cons z rest ih =>
    cases n with
    | zero => rfl
    | succ m => exact ih h

theorem setAt_setAt (l : List JVal) (n : Nat) (x y : JVal) :
    setAt (setAt l n x) n y = setAt l n y := by
  induction l generalizing n with
  | nil => rfl
  | cons z rest ih =>
    cases n with
    | zero => rfl
    | succ m => simp [setAt, ih]

theorem setAt_of_nthOpt {l : List JVal} {n : Nat} {x : JVal}
    (h : nthOpt l n = some x) : setAt l n x = l := by
  induction l generalizing n with
  | nil => rfl
  | cons z rest ih =>
    cases n with
    | zero =>
      simp only [nthOpt, Option.some.injEq] at h
      simp [setAt, h]
    | succ m => simp [setAt, ih h]

theorem insertAt_append (pre : List JVal) (v : JVal) :
    insertAt pre pre.length v = pre ++ [v] := by
  induction pre with
  | nil => rfl
  | cons x pre' ih => simp [insertAt, ih]

theorem eraseAt_append_self (l : List JVal) (z : JVal) (t : List JVal) :
    eraseAt (l ++ z :: t) l.length = l ++ t := by
  induction l with
  | nil => rfl
  | cons x l' ih => simp [eraseAt, ih]

theorem liftKey_op {kvs : List (String × JVal)} {k : String} {v : JVal}
    (op : PatchOp) (hget : objGet kvs k = some v) (hro : rootOk op = true) :
    applyOp (.obj kvs) (consSeg (.key k) op) =
      (applyOp v op).map (fun v' => .obj (objSetL kvs k v')) := by
  have hsome : (objGet kvs k).isSome = true := by rw [hget]; rfl
  cases op with
  | add p v0 =>
    cases p with
    | nil => simp [rootOk] at hro
    | cons s p' =>
      simp only [consSeg, applyOp, navApply, hget]
      cases navApply v (s :: p') (.addA v0) <;> rfl
  | remove p =>
    cases p with
    | nil => simp [rootOk] at hro
    | cons s p' =>
      simp only [consSeg, applyOp, navApply, hget]
      cases navApply v (s :: p') .removeA <;> rfl
  | replace p v0 =>
    cases p with
    | nil =>
      simp [consSeg, applyOp, navApply, applyLeaf, hsome]
    | cons s p' =>
      simp only [consSeg, applyOp, navApply, hget]
      cases navApply v (s :: p') (.replaceA v0) <;> rfl

theorem liftKey_patch {kvs : List (String × JVal)} {k : String} {v w : JVal}
    {ops : List PatchOp} (hs : sortedKeys (kvs.map Prod.fst) = true)
    (hget : objGet kvs k = some v) (hro : ∀ op ∈ ops, rootOk op = true)
    (happ : applyPatch v ops = some w) :
    applyPatch (.obj kvs) (ops.map (consSeg (.key k))) =
      some (.obj (objSetL kvs k w)) := by
  induction ops generalizing kvs v with
  | nil =>
    simp only [applyPatch, Option.some.injEq] at happ
    subst happ
    rw [List.map_nil, applyPatch, objSetL_of_get_eq hs hget]
  | cons op ops ih =>
    simp only [applyPatch] at happ
    cases hop : applyOp v op with
    | none => rw [hop] at happ; exact absurd happ (by simp)
    | some v1 =>
      rw [hop] at happ
      have h1 := liftKey_op op hget (hro op (by simp))
      rw [hop] at h1
      simp only [List.map_cons, applyPatch, h1, Option.map_some']
      have h2 := ih (objSetL_sorted hs) (objGet_objSetL_self kvs k v1)
        (fun o ho => hro o (by simp [ho])) happ
      rw [h2, objSetL_objSetL]

theorem liftIdx_op {xs : List JVal} {n : Nat} {x : JVal}
    (op : PatchOp) (hget : nthOpt xs n = some x) (hro : rootOk op = true) :
    applyOp (.arr xs) (consSeg (.idx n) op) =
      (applyOp x op).map (fun x' => .arr (setAt xs n x')) := by
  have hlen : n < xs.length := by
    induction xs generalizing n with
    | nil => simp [nthOpt] at hget
    | cons z rest ih =>
      cases n with
      | zero => simp
      | succ m => simpa using ih hget
  cases op with
  | add p v0 =>
    cases p with
    | nil => simp [rootOk] at hro
    | cons s p' =>
      simp only [consSeg, applyOp, navApply, hget]
      cases navApply x (s :: p') (.addA v0) <;> rfl
  | remove p =>
    cases p with
    | nil => simp [rootOk] at hro
    | cons s p' =>
      simp only [consSeg, applyOp, navApply, hget]
      cases navApply x (s :: p') .removeA <;> rfl
  | replace p v0 =>
    cases p with
    | nil =>
      simp [consSeg, applyOp, navApply, applyLeaf, hlen]
    | cons s p' =>
      simp only [consSeg, applyOp, navApply, hget]
      cases navApply x (s :: p') (.replaceA v0) <;> rfl

theorem liftIdx_patch {xs : List JVal} {n : Nat} {x y : JVal}
    {ops : List PatchOp} (hget : nthOpt xs n = some x)
    (hro : ∀ op ∈ ops, rootOk op = true) (happ : applyPatch x ops = some y) :
    applyPatch (.arr xs) (ops.map (consSeg (.idx n))) =
      some (.arr (setAt xs n y)) := by
  induction ops generalizing xs x with
  | nil =>
    simp only [applyPatch, Option.some.injEq] at happ
    subst happ
    rw [List.map_nil, applyPatch, setAt_of_nthOpt hget]
  | cons op ops ih =>
    simp only [applyPatch] at happ
    cases hop : applyOp x op with
    | none => rw [hop] at happ; exact absurd happ (by simp)
    | some x1 =>
      rw [hop] at happ
      have h1 := liftIdx_op op hget (hro op (by simp))
      rw [hop] at h1
      simp only [List.map_cons, applyPatch, h1, Option.map_some']
      have h2 := ih (nthOpt_setAt_self hget x1)
        (fun o ho => hro o (by simp [ho])) happ
      rw [h2, setAt_setAt]



theorem consSeg_rootOk (s : Seg) (op : PatchOp) : rootOk (consSeg s op) = true := by
  cases op <;> rfl

theorem addsFrom_rootOk (ys : List JVal) : ∀ (i : Nat),
    ∀ op ∈ addsFrom i ys, rootOk op = true := by
  induction ys with
  | nil => intro i op hop; simp [addsFrom] at hop
  | cons y ys ih =>
    intro i op hop
    simp only [addsFrom, List.mem_cons] at hop
    rcases hop with h | h
    · subst h; rfl
    · exact ih (i+1) op h

theorem removesDesc_rootOk (n : Nat) : ∀ (i : Nat),
    ∀ op ∈ removesDesc i n, rootOk op = true := by
  induction n with
  | zero => intro i op hop; simp [removesDesc] at hop
  | succ m ih =>
    intro i op hop
    simp only [removesDesc, List.mem_cons] at hop
    rcases hop with h | h
    · subst h; rfl
    · exact ih i op h

theorem diffAdds_rootOk (asrc bs : List (String × JVal)) :
    ∀ op ∈ diffAdds asrc bs, rootOk op = true := by
  induction bs with
  | nil => simp [diffAdds]
  | cons kw rest ih =>
    obtain ⟨k, w⟩ := kw
    intro op hop
    simp only [diffAdds, List.mem_append] at hop
    rcases hop with h | h
    · by_cases hc : (objGet asrc k).isSome
      · rw [if_pos hc] at h; simp at h
      · rw [if_neg hc] at h
        simp only [List.mem_singleton] at h
        subst h; rfl
    · exact ih op h

theorem diffArr_rootOk (xs : List JVal) : ∀ (ys : List JVal) (i : Nat),
    ∀ op ∈ diffArr xs ys i, rootOk op = true := by
  induction xs with
  | nil =>
    intro ys i op hop
    simp only [diffArr] at hop
    exact addsFrom_rootOk ys i op hop
  | cons x xs ih =>
    intro ys i op hop
    cases ys with
    | nil =>
      simp only [diffArr] at hop
      exact removesDesc_rootOk _ i op hop
    | cons y ys =>
      simp only [diffArr, List.mem_append, List.mem_map] at hop
      rcases hop with ⟨o, _, heq⟩ | h
      · rw [← heq]; exact consSeg_rootOk _ o
      · exact ih ys (i+1) op h

theorem diffObj_rootOk (btgt asrc : List (String × JVal)) :
    ∀ op ∈ diffObj btgt asrc, rootOk op = true := by
  induction asrc with
  | nil => simp [diffObj]
  | cons kv rest ih =>
    obtain ⟨k, v⟩ := kv
    intro op hop
    simp only [diffObj, List.mem_append] at hop
    rcases hop with h | h
    · cases hg : objGet btgt k with
      | some w =>
        rw [hg] at h
        simp only [List.mem_map] at h
        obtain ⟨o, _, heq⟩ := h
        rw [← heq]; exact consSeg_rootOk _ o
      | none =>
        rw [hg] at h
        simp only [List.mem_singleton] at h
        subst h; rfl
    · exact ih op h

theorem diff_rootOk (a b : JVal) : ∀ op ∈ diff a b, rootOk op = true := by
  intro op hop
  cases a <;> cases b <;>
    simp only [diff] at hop <;>
    (split at hop
     · simp at hop
     · first
         | exact diffArr_rootOk _ _ 0 op hop
         | (rcases List.mem_append.mp hop with h | h
            · exact diffObj_rootOk _ _ op h
            · exact diffAdds_rootOk _ _ op h)
         | (simp only [List.mem_singleton] at hop
            subst hop
            rfl))

theorem addsFrom_rt (ys : List JVal) : ∀ pre : List JVal,
    applyPatch (.arr pre) (addsFrom pre.length ys) = some (.arr (pre ++ ys)) := by
  induction ys with
  | nil => intro pre; simp [addsFrom, applyPatch]
  | cons y ys ih =>
    intro pre
    have h1 : applyOp (.arr pre) (.add [.idx pre.length] y) =
        some (.arr (pre ++ [y])) := by
      simp only [applyOp, navApply, applyLeaf]
      rw [if_pos (Nat.le_refl pre.length), insertAt_append]
    simp only [addsFrom, applyPatch, h1]
    have h2 := ih (pre ++ [y])
    rw [List.length_append, List.length_singleton] at h2
    rw [h2, List.append_assoc]
    simp

theorem removes_rt (tail : List JVal) : ∀ pre : List JVal,
    applyPatch (.arr (pre ++ tail)) (removesDesc pre.length tail.length) =
      some (.arr pre) := by
  induction tail using List.reverseRecOn with
  | nil => intro pre; simp [removesDesc, applyPatch]
  | append_singleton front z ih =>
    intro pre
    rw [List.length_append, List.length_singleton]
    simp only [removesDesc]
    have h1 : applyOp (.arr (pre ++ (front ++ [z])))
        (.remove [.idx (pre.length + front.length)]) =
        some (.arr (pre ++ front)) := by
      simp only [applyOp, navApply, applyLeaf]
      have hlen : pre.length + front.length < (pre ++ (front ++ [z])).length := by
        simp [List.length_append]
      rw [if_pos hlen]
      have hsplit : pre ++ (front ++ [z]) = (pre ++ front) ++ z :: [] := by simp
      rw [hsplit]
      have h2 : pre.length + front.length = (pre ++ front).length := by simp
      rw [h2, eraseAt_append_self]
      simp
    simp only [applyPatch, h1]
    exact ih pre

theorem diffArr_rt (xs : List JVal) : ∀ (ys pre : List JVal),
    (∀ x ∈ xs, ∀ y : JVal, WF x = true → WF y = true →
      applyPatch x (diff x y) = some y) →
    WFList xs = true → WFList ys = true →
    applyPatch (.arr (pre ++ xs)) (diffArr xs ys pre.length) =
      some (.arr (pre ++ ys)) := by
  induction xs with
  | nil =>
    intro ys pre IH hxs hys
    simp only [diffArr, List.append_nil]
    exact addsFrom_rt ys pre
  | cons x xs ih =>
    intro ys pre IH hxs hys
    cases ys with
    | nil =>
      simp only [diffArr]
      simpa using removes_rt (x :: xs) pre
    | cons y ys =>
      simp only [diffArr]
      rw [applyPatch_append]
      simp only [WFList, Bool.and_eq_true] at hxs hys
      have hrt : applyPatch x (diff x y) = some y :=
        IH x (by simp) y hxs.1 hys.1
      have hlift := liftIdx_patch (nthOpt_append_self pre x xs)
        (fun op hop => diff_rootOk x y op hop) hrt
      rw [hlift, Option.some_bind', setAt_append_self]
      have h3 := ih ys (pre ++ [y])
        (fun x' hx' y' => IH x' (by simp [hx']) y') hxs.2 hys.2
      rw [List.length_append, List.length_singleton] at h3
      simpa [List.append_assoc] using h3


theorem objGet_WF {bs : List (String × JVal)} {k : String} {w : JVal}
    (hwf : WFKVs bs = true) (hget : objGet bs k = some w) : WF w = true := by
  induction bs with
  | nil => simp [objGet] at hget
  | cons kv rest ih =>
    obtain ⟨k', v'⟩ := kv
    simp only [WFKVs, Bool.and_eq_true] at hwf
    simp only [objGet] at hget
    by_cases h1 : k' = k
    · rw [if_pos h1] at hget
      injection hget with hv
      rw [← hv]
      exact hwf.1
    · rw [if_neg h1] at hget
      exact ih hwf.2 hget

theorem sorted_mid_lt {l1 : List String} {k : String} {l2 : List String}
    (hs : sortedKeys (l1 ++ k :: l2) = true) : ∀ x ∈ l1, keyLt x k = true := by
  induction l1 with
  | nil => simp
  | cons a l1' ih =>
    simp only [List.cons_append, sortedKeys, Bool.and_eq_true] at hs
    intro x hx
    rcases List.mem_cons.mp hx with h | h
    · subst h
      exact allKeyLt_mem hs.1 (by simp)
    · exact ih hs.2 x h

theorem allKeyLt_drop_mid {x : String} {l1 : List String} {k : String}
    {l2 : List String} (h : allKeyLt x (l1 ++ k :: l2) = true) :
    allKeyLt x (l1 ++ l2) = true := by
  induction l1 with
  | nil =>
    simp only [List.nil_append, allKeyLt, Bool.and_eq_true] at h ⊢
    exact h.2
  | cons a l1' ih =>
    simp only [List.cons_append, allKeyLt, Bool.and_eq_true] at h ⊢
    exact ⟨h.1, ih h.2⟩

theorem sorted_drop_mid {l1 : List String} {k : String} {l2 : List String}
    (hs : sortedKeys (l1 ++ k :: l2) = true) : sortedKeys (l1 ++ l2) = true := by
  induction l1 with
  | nil =>
    simp only [List.nil_append, sortedKeys, Bool.and_eq_true] at hs
    exact hs.2
  | cons a l1' ih =>
    simp only [List.cons_append, sortedKeys, Bool.and_eq_true] at hs ⊢
    exact ⟨allKeyLt_drop_mid hs.1, ih hs.2⟩

theorem diffObj_rt (asrc : List (String × JVal)) :
    ∀ (btgt pre : List (String × JVal)),
    (∀ kv ∈ asrc, ∀ w : JVal, WF kv.2 = true → WF w = true →
      applyPatch kv.2 (diff kv.2 w) = some w) →
    sortedKeys ((pre ++ asrc).map Prod.fst) = true →
    WFKVs asrc = true → WFKVs btgt = true →
    applyPatch (.obj (pre ++ asrc)) (diffObj btgt asrc) =
      some (.obj (pre ++ procd btgt asrc)) := by
  induction asrc with
  | nil =>
    intro btgt pre IH hs has hbt
    simp [diffObj, procd, applyPatch]
  | cons kv rest ih =>
    obtain ⟨k, v⟩ := kv
    intro btgt pre IH hs has hbt
    simp only [WFKVs, Bool.and_eq_true] at has
    have hmfst : ((pre ++ (k, v) :: rest).map Prod.fst) =
        pre.map Prod.fst ++ k :: rest.map Prod.fst := by simp
    rw [hmfst] at hs
    have hpre_lt : ∀ p ∈ pre, keyLt p.1 k = true := fun p hp =>
      sorted_mid_lt hs p.1 (List.mem_map_of_mem _ hp)
    have hpre_ne : ∀ p ∈ pre, p.1 ≠ k := fun p hp => keyLt_ne (hpre_lt p hp)
    have hget : objGet (pre ++ (k, v) :: rest) k = some v := by
      rw [objGet_append_of_ne hpre_ne]
      simp [objGet]
    cases hg : objGet btgt k with
    | some w =>
      simp only [diffObj, hg]
      rw [applyPatch_append]
      have hrt : applyPatch v (diff v w) = some w :=
        IH ⟨k, v⟩ (by simp) w has.1 (objGet_WF hbt hg)
      have hsfull : sortedKeys ((pre ++ (k, v) :: rest).map Prod.fst) = true := by
        rw [hmfst]; exact hs
      have hlift := liftKey_patch hsfull hget
        (fun op hop => diff_rootOk v w op hop) hrt
      rw [hlift, Option.some_bind', objSetL_append_mid hpre_lt]
      have hs' : sortedKeys (((pre ++ [(k, w)]) ++ rest).map Prod.fst) = true := by
        have : (((pre ++ [(k, w)]) ++ rest).map Prod.fst) =
            pre.map Prod.fst ++ k :: rest.map Prod.fst := by simp
        rw [this]; exact hs
      have h5 := ih btgt (pre ++ [(k, w)])
        (fun kv' hkv' w' hw1 hw2 => IH kv' (by simp [hkv']) w' hw1 hw2)
        hs' has.2 hbt
      simp only [procd, hg]
      simpa [List.append_assoc] using h5
    | none =>
      simp only [diffObj, hg]
      have hsome : (objGet (pre ++ (k, v) :: rest) k).isSome = true := by
        rw [hget]; rfl
      have h1 : applyOp (.obj (pre ++ (k, v) :: rest)) (.remove [.key k]) =
          some (.obj (pre ++ rest)) := by
        simp only [applyOp, navApply, applyLeaf, if_pos hsome]
        rw [objRemoveL_append_mid hpre_ne]
      rw [List.singleton_append]
      simp only [applyPatch, h1]
      have hs' : sortedKeys ((pre ++ rest).map Prod.fst) = true := by
        have h6 := sorted_drop_mid hs
        have : ((pre ++ rest).map Prod.fst) =
            pre.map Prod.fst ++ rest.map Prod.fst := by simp
        rw [this]; exact h6
      have h5 := ih btgt pre
        (fun kv' hkv' w' hw1 hw2 => IH kv' (by simp [hkv']) w' hw1 hw2)
        hs' has.2 hbt
      simp only [procd, hg]
      exact h5


theorem procd_keys_sub {btgt : List (String × JVal)} :
    ∀ {asrc : List (String × JVal)} {k : String},
    k ∈ (procd btgt asrc).map Prod.fst → k ∈ asrc.map Prod.fst := by
  intro asrc
  induction asrc with
  | nil => intro k h; simp [procd] at h
  | cons kv rest ih =>
    obtain ⟨k1, v1⟩ := kv
    intro k h
    simp only [procd] at h
    cases hg : objGet btgt k1 with
    | some w =>
      rw [hg] at h
      simp only [List.map_cons, List.mem_cons] at h ⊢
      rcases h with h | h
      · exact Or.inl h
      · exact Or.inr (ih h)
    | none =>
      rw [hg] at h
      simp only [List.map_cons, List.mem_cons]
      exact Or.inr (ih h)

theorem objGet_procd (btgt : List (String × JVal)) :
    ∀ {asrc : List (String × JVal)},
    sortedKeys (asrc.map Prod.fst) = true → ∀ k,
    objGet (procd btgt asrc) k =
      match objGet asrc k with
      | some _ => objGet btgt k
      | none => none := by
  intro asrc
  induction asrc with
  | nil => intro _ k; simp [procd, objGet]
  | cons kv rest ih =>
    obtain ⟨k1, v1⟩ := kv
    intro hs k
    simp only [List.map_cons, sortedKeys, Bool.and_eq_true] at hs
    by_cases h1 : k1 = k
    · subst h1
      have hk1 : ¬ k1 ∈ rest.map Prod.fst := by
        intro hm
        have h2 := allKeyLt_mem hs.1 hm
        rw [keyLt_irrefl] at h2
        exact Bool.false_ne_true h2
      cases hg : objGet btgt k1 with
      | some w => simp [procd, hg, objGet]
      | none =>
        have h3 : objGet (procd btgt rest) k1 = none :=
          objGet_not_mem (fun hm => hk1 (procd_keys_sub hm))
        simp [procd, hg, objGet, h3]
    · cases hg : objGet btgt k1 with
      | some w => simp [procd, hg, objGet, h1, ih hs.2 k]
      | none => simp [procd, hg, objGet, h1, ih hs.2 k]

theorem filter_map_fst (p : String → Bool) (bs : List (String × JVal)) :
    (bs.filter (fun kv => p kv.1)).map Prod.fst = (bs.map Prod.fst).filter p := by
  induction bs with
  | nil => rfl
  | cons kv rest ih =>
    obtain ⟨k1, v1⟩ := kv
    cases hp : p k1 <;> simp [List.filter, hp, ih]

theorem allKeyLt_filter {k : String} {l : List String} (p : String → Bool)
    (h : allKeyLt k l = true) : allKeyLt k (l.filter p) = true := by
  induction l with
  | nil => rfl
  | cons a rest ih =>
    simp only [allKeyLt, Bool.and_eq_true] at h
    cases hp : p a
    · simp only [List.filter, hp]
      exact ih h.2
    · simp only [List.filter, hp, allKeyLt, Bool.and_eq_true]
      exact ⟨h.1, ih h.2⟩

theorem sorted_filter {l : List String} (p : String → Bool)
    (h : sortedKeys l = true) : sortedKeys (l.filter p) = true := by
  induction l with
  | nil => rfl
  | cons a rest ih =>
    simp only [sortedKeys, Bool.and_eq_true] at h
    cases hp : p a
    · simp only [List.filter, hp]
      exact ih h.2
    · simp only [List.filter, hp, sortedKeys, Bool.and_eq_true]
      exact ⟨allKeyLt_filter p h.1, ih h.2⟩

theorem procd_map_fst (btgt : List (String × JVal)) :
    ∀ asrc : List (String × JVal),
    (procd btgt asrc).map Prod.fst =
      (asrc.map Prod.fst).filter (fun k => (objGet btgt k).isSome) := by
  intro asrc
  induction asrc with
  | nil => rfl
  | cons kv rest ih =>
    obtain ⟨k1, v1⟩ := kv
    cases hg : objGet btgt k1 with
    | some w => simp [procd, hg, List.filter, ih]
    | none => simp [procd, hg, List.filter, ih]

theorem objGet_filter (p : String → Bool) :
    ∀ (bs : List (String × JVal)),
    sortedKeys (bs.map Prod.fst) = true → ∀ k,
    objGet (bs.filter (fun kv => p kv.1)) k =
      if p k then objGet bs k else none := by
  intro bs
  induction bs with
  | nil => intro _ k; simp [objGet, List.filter]
  | cons kv rest ih =>
    obtain ⟨k1, v1⟩ := kv
    intro hs k
    simp only [List.map_cons, sortedKeys, Bool.and_eq_true] at hs
    by_cases hk : k1 = k
    · subst hk
      have hk1 : ¬ k1 ∈ rest.map Prod.fst := by
        intro hm
        have h2 := allKeyLt_mem hs.1 hm
        rw [keyLt_irrefl] at h2
        exact Bool.false_ne_true h2
      cases hp : p k1 with
      | true =>
        simp [List.filter, hp, objGet]
      | false =>
        have h3 : objGet (rest.filter (fun kv => p kv.1)) k1 = none := by
          apply objGet_not_mem
          intro hm
          rw [filter_map_fst] at hm
          exact hk1 (List.mem_of_mem_filter hm)
        simp [List.filter, hp, h3]
    · cases hp : p k1 with
      | true => simp [List.filter, hp, objGet, hk, ih hs.2 k]
      | false => simp [List.filter, hp, objGet, hk, ih hs.2 k]

theorem assocExt : ∀ (l1 l2 : List (String × JVal)),
    sortedKeys (l1.map Prod.fst) = true → sortedKeys (l2.map Prod.fst) = true →
    (∀ k, objGet l1 k = objGet l2 k) → l1 = l2
  | [], [] => fun _ _ _ => rfl
  | [], (k2, v2) :: t2 => fun _ _ h => by
    have h2 := h k2
    simp [objGet] at h2
  | (k1, v1) :: t1, [] => fun _ _ h => by
    have h2 := h k1
    simp [objGet] at h2
  | (k1, v1) :: t1, (k2, v2) :: t2 => fun hs1 hs2 h => by
    simp only [List.map_cons, sortedKeys, Bool.and_eq_true] at hs1 hs2
    have hk1not : k1 ∉ t1.map Prod.fst := by
      intro hm
      have h2 := allKeyLt_mem hs1.1 hm
      rw [keyLt_irrefl] at h2
      exact Bool.false_ne_true h2
    have hk2not : k2 ∉ t2.map Prod.fst := by
      intro hm
      have h2 := allKeyLt_mem hs2.1 hm
      rw [keyLt_irrefl] at h2
      exact Bool.false_ne_true h2
    have hkeq : k1 = k2 := by
      by_contra hne
      have h1 := h k1
      rw [objGet, if_pos rfl] at h1
      have hm1 : k1 ∈ ((k2, v2) :: t2).map Prod.fst := objGet_some_mem h1.symm
      simp only [List.map_cons, List.mem_cons] at hm1
      rcases hm1 with he | hm1
      · exact hne he
      · have hlt2 : keyLt k2 k1 = true := allKeyLt_mem hs2.1 hm1
        have h2 := h k2
        rw [objGet, if_neg hne] at h2
        conv at h2 => rhs; rw [objGet, if_pos rfl]
        have hm2 := objGet_some_mem h2
        have hlt1 : keyLt k1 k2 = true := allKeyLt_mem hs1.1 hm2
        rw [keyLt_asymm hlt1] at hlt2
        exact Bool.false_ne_true hlt2
    subst hkeq
    have hv : v1 = v2 := by
      have h1 := h k1
      rw [objGet, if_pos rfl] at h1
      conv at h1 => rhs; rw [objGet, if_pos rfl]
      injection h1
    subst hv
    have htails : ∀ k, objGet t1 k = objGet t2 k := by
      intro k
      by_cases hk : k1 = k
      · subst hk
        rw [objGet_not_mem hk1not, objGet_not_mem hk2not]
      · have h1 := h k
        rw [objGet, if_neg hk] at h1
        conv at h1 => rhs; rw [objGet, if_neg hk]
        exact h1
    rw [assocExt t1 t2 hs1.2 hs2.2 htails]

theorem objSetL_front {l : List (String × JVal)} {k : String}
    (h : ∀ p ∈ l, keyLt k p.1 = true) (w : JVal) :
    objSetL l k w = (k, w) :: l := by
  cases l with
  | nil => rfl
  | cons kv rest =>
    obtain ⟨k', v'⟩ := kv
    have hlt := h ⟨k', v'⟩ (by simp)
    have hne : ¬ k = k' := keyLt_ne hlt
    simp only [objSetL, if_neg hne, if_pos hlt]

theorem consLift {k : String} {w : JVal} :
    ∀ {ops : List PatchOp},
    (∀ op ∈ ops, ∃ k' v', op = PatchOp.add [Seg.key k'] v' ∧ keyLt k k' = true) →
    ∀ {cs ds : List (String × JVal)},
    applyPatch (.obj cs) ops = some (.obj ds) →
    applyPatch (.obj ((k, w) :: cs)) ops = some (.obj ((k, w) :: ds)) := by
  intro ops
  induction ops with
  | nil =>
    intro _ cs ds h
    simp only [applyPatch, Option.some.injEq, JVal.obj.injEq] at h
    subst h
    rfl
  | cons op ops ih =>
    intro hops cs ds h
    obtain ⟨k', v', heq, hlt⟩ := hops op (by simp)
    subst heq
    have h1 : applyOp (.obj cs) (.add [.key k'] v') =
        some (.obj (objSetL cs k' v')) := by
      simp [applyOp, navApply, applyLeaf]
    simp only [applyPatch, h1] at h
    have hne : ¬ k' = k := fun he => (keyLt_ne hlt) he.symm
    have hnl : ¬ keyLt k' k = true := by
      intro hc
      rw [keyLt_asymm hc] at hlt
      exact Bool.false_ne_true hlt
    have h2 : applyOp (.obj ((k, w) :: cs)) (.add [.key k'] v') =
        some (.obj ((k, w) :: objSetL cs k' v')) := by
      simp only [applyOp, navApply, applyLeaf, objSetL, if_neg hne, if_neg hnl]
    simp only [applyPatch, h2]
    exact ih (fun o ho => hops o (by simp [ho])) h

theorem diffAdds_mem {asrc : List (String × JVal)} :
    ∀ {bs : List (String × JVal)} {op : PatchOp}, op ∈ diffAdds asrc bs →
    ∃ k w, op = PatchOp.add [Seg.key k] w ∧ k ∈ bs.map Prod.fst := by
  intro bs
  induction bs with
  | nil => intro op hop; simp [diffAdds] at hop
  | cons kw rest ih =>
    obtain ⟨k, w⟩ := kw
    intro op hop
    simp only [diffAdds, List.mem_append] at hop
    rcases hop with h | h
    · by_cases hc : (objGet asrc k).isSome
      · rw [if_pos hc] at h; simp at h
      · rw [if_neg hc] at h
        simp only [List.mem_singleton] at h
        exact ⟨k, w, h, by simp⟩
    · obtain ⟨k', w', heq, hm⟩ := ih h
      exact ⟨k', w', heq, by simp [hm]⟩

theorem phase2 (asrc : List (String × JVal)) :
    ∀ bs : List (String × JVal), sortedKeys (bs.map Prod.fst) = true →
    applyPatch (.obj (bs.filter (fun kv => (objGet asrc kv.1).isSome)))
      (diffAdds asrc bs) = some (.obj bs) := by
  intro bs
  induction bs with
  | nil => intro _; simp [diffAdds, applyPatch, List.filter]
  | cons kw rest ih =>
    obtain ⟨k, w⟩ := kw
    intro hs
    simp only [List.map_cons, sortedKeys, Bool.and_eq_true] at hs
    by_cases hp : (objGet asrc k).isSome = true
    · have hfil : ((k, w) :: rest).filter (fun kv => (objGet asrc kv.1).isSome) =
          (k, w) :: rest.filter (fun kv => (objGet asrc kv.1).isSome) := by
        simp [List.filter, hp]
      rw [hfil]
      simp only [diffAdds, if_pos hp, List.nil_append]
      apply consLift
      · intro op hop
        obtain ⟨k', w', heq, hmem⟩ := diffAdds_mem hop
        exact ⟨k', w', heq, allKeyLt_mem hs.1 hmem⟩
      · exact ih hs.2
    · have hpf : (objGet asrc k).isSome = false := by
        cases hb : (objGet asrc k).isSome
        · rfl
        · exact absurd hb hp
      have hfil : ((k, w) :: rest).filter (fun kv => (objGet asrc kv.1).isSome) =
          rest.filter (fun kv => (objGet asrc kv.1).isSome) := by
        simp [List.filter, hpf]
      rw [hfil]
      simp only [diffAdds, if_neg hp, List.singleton_append]
      have hfront : ∀ p ∈ rest.filter (fun kv => (objGet asrc kv.1).isSome),
          keyLt k p.1 = true := by
        intro p hpm
        exact allKeyLt_mem hs.1
          (List.mem_map_of_mem _ (List.mem_of_mem_filter hpm))
      have h1 : applyOp (.obj (rest.filter (fun kv => (objGet asrc kv.1).isSome)))
          (.add [.key k] w) =
          some (.obj ((k, w) :: rest.filter (fun kv => (objGet asrc kv.1).isSome))) := by
        simp only [applyOp, navApply, applyLeaf]
        rw [objSetL_front hfront]
      simp only [applyPatch, h1]
      apply consLift
      · intro op hop
        obtain ⟨k', w', heq, hmem⟩ := diffAdds_mem hop
        exact ⟨k', w', heq, allKeyLt_mem hs.1 hmem⟩
      · exact ih hs.2


theorem diff_self (a : JVal) : diff a a = [] := by
  cases a <;> simp [diff]

theorem replace_root_rt (a b : JVal) :
    applyPatch a [PatchOp.replace [] b] = some b := by
  simp [applyPatch, applyOp, navApply]

/-- Round-trip law of the Diff Engine: applying `diff a b` to `a` yields `b`,
for all well-formed JSON values (all values produced by `nlohmann::json` are
well-formed, i.e. have sorted object keys). -/
theorem patch_diff_rt (a b : JVal) (ha : WF a = true) (hb : WF b = true) :
    applyPatch a (diff a b) = some b := by
  by_cases heq : a = b
  · subst heq
    rw [diff_self]
    rfl
  · cases a with
    | null =>
      cases b <;>
        first
          | exact absurd rfl heq
          | (simp [diff, heq]; exact replace_root_rt _ _)
    | bool a0 =>
      cases b <;> simp [diff, heq] <;> exact replace_root_rt _ _
    | num a0 =>
      cases b <;> simp [diff, heq] <;> exact replace_root_rt _ _
    | str a0 =>
      cases b <;> simp [diff, heq] <;> exact replace_root_rt _ _
    | arr xs =>
      cases b with
      | arr ys =>
        have hd : diff (.arr xs) (.arr ys) = diffArr xs ys 0 := by
          simp [diff, heq]
        rw [hd]
        have h1 := diffArr_rt xs ys []
          (fun x hx y hwx hwy => patch_diff_rt x y hwx hwy)
          (by simpa [WF] using ha) (by simpa [WF] using hb)
        simpa using h1
      | null => simp [diff, heq]; exact replace_root_rt _ _
      | bool b0 => simp [diff, heq]; exact replace_root_rt _ _
      | num b0 => simp [diff, heq]; exact replace_root_rt _ _
      | str b0 => simp [diff, heq]; exact replace_root_rt _ _
      | obj bkvs => simp [diff, heq]; exact replace_root_rt _ _
    | obj akvs =>
      cases b with
      | obj bkvs =>
        have hd : diff (.obj akvs) (.obj bkvs) =
            diffObj bkvs akvs ++ diffAdds akvs bkvs := by
          simp [diff, heq]
        rw [hd]
        simp only [WF, Bool.and_eq_true] at ha hb
        rw [applyPatch_append]
        have hph1 := diffObj_rt akvs bkvs []
          (fun kv hkv w hw1 hw2 => patch_diff_rt kv.2 w hw1 hw2)
          (by simpa using ha.1) ha.2 hb.2
        simp only [List.nil_append] at hph1
        rw [hph1, Option.some_bind']
        have hproc : procd bkvs akvs =
            bkvs.filter (fun kv => (objGet akvs kv.1).isSome) := by
          apply assocExt
          · rw [procd_map_fst]
            exact sorted_filter _ ha.1
          · rw [filter_map_fst (fun k0 => (objGet akvs k0).isSome) bkvs]
            exact sorted_filter _ hb.1
          · intro k
            rw [objGet_procd bkvs ha.1 k,
              objGet_filter (fun k0 => (objGet akvs k0).isSome) bkvs hb.1 k]
            cases hg : objGet akvs k <;> simp
        rw [hproc]
        exact phase2 akvs bkvs hb.1
      | null => simp [diff, heq]; exact replace_root_rt _ _
      | bool b0 => simp [diff, heq]; exact replace_root_rt _ _
      | num b0 => simp [diff, heq]; exact replace_root_rt _ _
      | str b0 => simp [diff, heq]; exact replace_root_rt _ _
      | arr ys => simp [diff, heq]; exact replace_root_rt _ _
termination_by sizeOf a
decreasing_by
  all_goals subst_vars
  · have h1 := List.sizeOf_lt_of_mem hx
    simp only [JVal.arr.sizeOf_spec]
    omega
  · have h1 := List.sizeOf_lt_of_mem hkv
    obtain ⟨k0, v0⟩ := kv
    simp only [Prod.mk.sizeOf_spec] at h1 ⊢
    simp only [JVal.obj.sizeOf_spec]
    omega


theorem WFKVs_objSetL {l : List (String × JVal)} {k : String} {v : JVal}
    (hv : WF v = true) (h : WFKVs l = true) : WFKVs (objSetL l k v) = true := by
  induction l with
  | nil => simp [objSetL, WFKVs, hv]
  | cons kv rest ih =>
    obtain ⟨k', v'⟩ := kv
    simp only [WFKVs, Bool.and_eq_true] at h
    by_cases h1 : k = k'
    · simp only [objSetL, if_pos h1, WFKVs, Bool.and_eq_true]
      exact ⟨hv, h.2⟩
    · by_cases h2 : keyLt k k' = true
      · simp only [objSetL, if_neg h1, if_pos h2, WFKVs, Bool.and_eq_true]
        exact ⟨hv, h.1, h.2⟩
      · simp only [objSetL, if_neg h1, if_neg h2, WFKVs, Bool.and_eq_true]
        exact ⟨h.1, ih h.2⟩

theorem optInsert_sorted {o : List (String × JVal)} {k : String}
    {v : Option JVal} (h : sortedKeys (o.map Prod.fst) = true) :
    sortedKeys ((optInsert o k v).map Prod.fst) = true := by
  cases v with
  | none => exact h
  | some j => exact objSetL_sorted h

theorem optInsert_WFKVs {o : List (String × JVal)} {k : String}
    {v : Option JVal} (hv : ∀ j, v = some j → WF j = true)
    (h : WFKVs o = true) : WFKVs (optInsert o k v) = true := by
  cases v with
  | none => exact h
  | some j => exact WFKVs_objSetL (hv j rfl) h

theorem WF_fieldToJson (f : LField) : WF (fieldToJson f) = true := by
  cases f <;> rfl

theorem WFList_map_fields (fs : List LField) :
    WFList (fs.map fieldToJson) = true := by
  induction fs with
  | nil => rfl
  | cons f fs ih =>
    simp only [List.map_cons, WFList, Bool.and_eq_true]
    exact ⟨WF_fieldToJson f, ih⟩

theorem WF_activityToJson (a : ActivityState) : WF (activityToJson a) = true := by
  simp only [activityToJson, WF, Bool.and_eq_true]
  constructor
  · exact optInsert_sorted (objSetL_sorted (objSetL_sorted (objSetL_sorted rfl)))
  · apply optInsert_WFKVs
    · intro j hj
      by_cases hf : a.fields.isEmpty = true
      · rw [if_pos hf] at hj
        exact absurd hj (by simp)
      · rw [if_neg hf] at hj
        injection hj with hj
        rw [← hj]
        simp only [WF]
        exact WFList_map_fields a.fields
    · exact WFKVs_objSetL rfl (WFKVs_objSetL rfl (WFKVs_objSetL rfl rfl))

theorem WF_optNatJson (o : Option Nat) : WF (optNatJson o) = true := by
  cases o <;> rfl

theorem WF_optStrJson (o : Option String) : WF (optStrJson o) = true := by
  cases o <;> rfl

theorem WF_frameToJson (f : StackFrame) : WF (frameToJson f) = true := by
  simp only [frameToJson, WF, Bool.and_eq_true]
  constructor
  · exact objSetL_sorted (objSetL_sorted (objSetL_sorted (objSetL_sorted rfl)))
  · exact WFKVs_objSetL (WF_optStrJson _) (WFKVs_objSetL (WF_optNatJson _)
      (WFKVs_objSetL (WF_optNatJson _) (WFKVs_objSetL rfl rfl)))

theorem WFList_map_frames (t : List StackFrame) :
    WFList (t.map frameToJson) = true := by
  induction t with
  | nil => rfl
  | cons f fs ih =>
    simp only [List.map_cons, WFList, Bool.and_eq_true]
    exact ⟨WF_frameToJson f, ih⟩

theorem WF_msgToJson (m : NixMessage) : WF (msgToJson m) = true := by
  simp only [msgToJson, WF, Bool.and_eq_true]
  constructor
  · exact optInsert_sorted (optInsert_sorted (optInsert_sorted (optInsert_sorted
      (optInsert_sorted (optInsert_sorted (objSetL_sorted rfl))))))
  · apply optInsert_WFKVs
    · intro j hj
      by_cases hc : m.raw_msg.isEmpty = true
      · rw [if_pos hc] at hj
        exact absurd hj (by simp)
      · rw [if_neg hc] at hj
        injection hj with hj
        rw [← hj]; rfl
    · apply optInsert_WFKVs
      · intro j hj
        by_cases hc : m.msg.isEmpty = true
        · rw [if_pos hc] at hj
          exact absurd hj (by simp)
        · rw [if_neg hc] at hj
          injection hj with hj
          rw [← hj]; rfl
      · apply optInsert_WFKVs
        · intro j hj
          cases ht : m.trace with
          | none => rw [ht] at hj; exact absurd hj (by simp)
          | some t =>
            rw [ht] at hj
            simp only [Option.map_some'] at hj
            injection hj with hj
            rw [← hj]
            simp only [WF]
            exact WFList_map_frames t
        · apply optInsert_WFKVs
          · intro j hj
            cases hf : m.file with
            | none => rw [hf] at hj; exact absurd hj (by simp)
            | some s =>
              rw [hf] at hj
              simp only [Option.map_some'] at hj
              injection hj with hj
              rw [← hj]; rfl
          · apply optInsert_WFKVs
            · intro j hj
              cases hf : m.column with
              | none => rw [hf] at hj; exact absurd hj (by simp)
              | some c =>
                rw [hf] at hj
                have hj' : JVal.num c = j := by simpa using hj
                rw [← hj']; rfl
            · apply optInsert_WFKVs
              · intro j hj
                cases hf : m.line with
                | none => rw [hf] at hj; exact absurd hj (by simp)
                | some n =>
                  rw [hf] at hj
                  have hj' : JVal.num n = j := by simpa using hj
                  rw [← hj']; rfl
              · exact WFKVs_objSetL rfl rfl

theorem WFList_map_msgs (msgs : List NixMessage) :
    WFList (msgs.map msgToJson) = true := by
  induction msgs with
  | nil => rfl
  | cons msg rest ih =>
    simp only [List.map_cons, WFList, Bool.and_eq_true]
    exact ⟨WF_msgToJson msg, ih⟩

theorem activitiesToJson_WF (acts : List (Nat × ActivityState)) :
    sortedKeys ((activitiesToJson acts).map Prod.fst) = true ∧
    WFKVs (activitiesToJson acts) = true := by
  have h : ∀ o : List (String × JVal), sortedKeys (o.map Prod.fst) = true →
      WFKVs o = true →
      sortedKeys ((acts.foldl (fun o kv => objSetL o (toString kv.1)
        (activityToJson kv.2)) o).map Prod.fst) = true ∧
      WFKVs (acts.foldl (fun o kv => objSetL o (toString kv.1)
        (activityToJson kv.2)) o) = true := by
    induction acts with
    | nil => intro o h1 h2; exact ⟨h1, h2⟩
    | cons kv rest ih =>
      intro o h1 h2
      simp only [List.foldl_cons]
      exact ih _ (objSetL_sorted h1) (WFKVs_objSetL (WF_activityToJson kv.2) h2)
  exact h [] rfl rfl

/-- Every Snapshot of the State Model is a well-formed JSON value. -/
theorem WF_stateToJson (s : NixBuildState) : WF (stateToJson s) = true := by
  simp only [stateToJson, WF, Bool.and_eq_true]
  constructor
  · exact objSetL_sorted (objSetL_sorted rfl)
  · apply WFKVs_objSetL
    · simp only [WF, Bool.and_eq_true]
      exact ⟨(activitiesToJson_WF s.activities).1, (activitiesToJson_WF s.activities).2⟩
    · apply WFKVs_objSetL
      · simp only [WF]
        exact WFList_map_msgs s.messages
      · rfl

theorem objGet_objSetL_ne {l : List (String × JVal)} {k k' : String}
    (hne : k' ≠ k) (v : JVal) : objGet (objSetL l k' v) k = objGet l k := by
  induction l with
  | nil => simp [objSetL, objGet, hne]
  | cons kv rest ih =>
    obtain ⟨k1, v1⟩ := kv
    by_cases h1 : k' = k1
    · simp only [objSetL, if_pos h1, objGet]
      rw [if_neg (h1 ▸ hne), if_neg (h1 ▸ hne ∘ (h1 ▸ id))]
    · by_cases h2 : keyLt k' k1 = true
      · simp only [objSetL, if_neg h1, if_pos h2, objGet, if_neg hne]
      · simp only [objSetL, if_neg h1, if_neg h2, objGet, ih]

/-- The `messages` member of a Snapshot. -/
theorem stateToJson_messages (s : NixBuildState) :
    objGet ((objSetL (objSetL [] "messages" (.arr (s.messages.map msgToJson)))
      "activities" (.obj (activitiesToJson s.activities)))) "messages" =
      some (.arr (s.messages.map msgToJson)) := by
  rw [objGet_objSetL_ne (by decide), objGet_objSetL_self]


theorem replayFrom_append_of_some {fs : List Frame} :
    ∀ {c d : JVal}, replayFrom c fs = some d → ∀ gs : List Frame,
    replayFrom c (fs ++ gs) = replayFrom d gs := by
  induction fs with
  | nil =>
    intro c d h gs
    simp only [replayFrom, Option.some.injEq] at h
    subst h
    simp
  | cons f rest ih =>
    intro c d h gs
    cases f with
    | value j => simp [replayFrom] at h
    | patch p =>
      simp only [replayFrom] at h
      simp only [List.cons_append, replayFrom]
      cases hap : applyPatch c p with
      | none => rw [hap] at h; exact absurd h (by simp)
      | some c' =>
        rw [hap] at h
        exact ih h gs

theorem replay_append_of_some {fs : List Frame} {d : JVal}
    (h : replay fs = some d) (gs : List Frame) :
    replay (fs ++ gs) = replayFrom d gs := by
  cases fs with
  | nil => simp [replay] at h
  | cons f rest =>
    cases f with
    | value j =>
      simp only [replay] at h
      simp only [List.cons_append, replay]
      exact replayFrom_append_of_some h gs
    | patch p => simp [replay] at h

theorem runEvents_append (l1 l2 : List Event) : ∀ st : LoggerState,
    runEvents st (l1 ++ l2) =
      ⟨(runEvents (runEvents st l1).st l2).st,
       (runEvents st l1).frames ++ (runEvents (runEvents st l1).st l2).frames,
       (runEvents st l1).warns ++ (runEvents (runEvents st l1).st l2).warns⟩ := by
  induction l1 with
  | nil => intro st; simp [runEvents]
  | cons e es ih =>
    intro st
    simp only [List.cons_append, List.append_eq, runEvents, ih,
      List.append_assoc]

/-- A mutator step on a logger that has not exited transmits nothing and
leaves `last_sent` and both flags unchanged. -/
theorem mutator_step_quiet (st : LoggerState) (e : Event)
    (hm : isMutator e = true) (hx : st.exited = false) :
    (stepEvent st e).frames = [] ∧
    (stepEvent st e).st.last_sent = st.last_sent ∧
    (stepEvent st e).st.exited = false ∧
    (stepEvent st e).st.exitPeriodicAction = st.exitPeriodicAction := by
  cases e with
  | initTick => simp [isMutator] at hm
  | tick => simp [isMutator] at hm
  | stop => simp [isMutator] at hm
  | logMsg s => simp [stepEvent, hx]
  | logErr ei => simp [stepEvent, hx]
  | start id ty text fields parent => simp [stepEvent, hx]
  | stopAct id => simp [stepEvent, hx]
  | result id ty fields =>
    simp only [stepEvent]
    cases objGetA st.state.activities id <;> simp [hx]

theorem runEvents_mutators (pre : List Event) : ∀ st : LoggerState,
    pre.all isMutator = true → st.exited = false →
    (runEvents st pre).frames = [] ∧
    (runEvents st pre).st.last_sent = st.last_sent ∧
    (runEvents st pre).st.exited = false ∧
    (runEvents st pre).st.exitPeriodicAction = st.exitPeriodicAction := by
  induction pre with
  | nil => intro st _ hx; exact ⟨rfl, rfl, hx, rfl⟩
  | cons e es ih =>
    intro st hall hx
    simp only [List.all_cons, Bool.and_eq_true] at hall
    have hstep := mutator_step_quiet st e hall.1 hx
    have ih' := ih (stepEvent st e).st hall.2 hstep.2.2.1
    simp only [runEvents]
    refine ⟨?_, ?_, ih'.2.2.1, ?_⟩
    · rw [hstep.1, ih'.1]; rfl
    · rw [ih'.2.1, hstep.2.1]
    · rw [ih'.2.2.2, hstep.2.2.2]

theorem sendLatest_state (st : LoggerState) : (sendLatest st).1.state = st.state := by
  by_cases heq : st.last_sent = stateToJson st.state <;> simp [sendLatest, heq]

theorem sendLatest_exited (st : LoggerState) :
    (sendLatest st).1.exited = st.exited := by
  by_cases heq : st.last_sent = stateToJson st.state <;> simp [sendLatest, heq]

theorem sendLatest_exitFlag (st : LoggerState) :
    (sendLatest st).1.exitPeriodicAction = st.exitPeriodicAction := by
  by_cases heq : st.last_sent = stateToJson st.state <;> simp [sendLatest, heq]

theorem sendLatest_showTrace (st : LoggerState) :
    (sendLatest st).1.showTrace = st.showTrace := by
  by_cases heq : st.last_sent = stateToJson st.state <;> simp [sendLatest, heq]

/-- After `sendLatestIfNecessary`, `last_sent` always equals the current
snapshot (both when it transmitted a patch and when it had nothing to do). -/
theorem sendLatest_last (st : LoggerState) :
    (sendLatest st).1.last_sent = stateToJson st.state := by
  by_cases heq : st.last_sent = stateToJson st.state <;> simp [sendLatest, heq]

/-- Whatever branch `sendLatestIfNecessary` takes, the frames transmitted so
far (plus the new ones) replay to the new `last_sent`. -/
theorem sendLatest_replay {st : LoggerState} {fs0 : List Frame}
    (hrep : replay fs0 = some st.last_sent) (hwf : WF st.last_sent = true) :
    replay (fs0 ++ (sendLatest st).2) = some (sendLatest st).1.last_sent := by
  by_cases heq : st.last_sent = stateToJson st.state
  · simp only [sendLatest, if_pos heq]
    simpa using hrep
  · simp only [sendLatest, if_neg heq]
    rw [replay_append_of_some hrep]
    simp only [replayFrom]
    rw [patch_diff_rt st.last_sent (stateToJson st.state) hwf
      (WF_stateToJson st.state)]

theorem runEvents_mid (mid : List Event) : ∀ (st : LoggerState) (fs0 : List Frame),
    mid.all (fun e => isMutator e || e == Event.tick) = true →
    st.exited = false → st.exitPeriodicAction = false →
    replay fs0 = some st.last_sent → WF st.last_sent = true →
    replay (fs0 ++ (runEvents st mid).frames) =
      some (runEvents st mid).st.last_sent ∧
    WF (runEvents st mid).st.last_sent = true ∧
    (runEvents st mid).st.exited = false ∧
    (runEvents st mid).st.exitPeriodicAction = false := by
  induction mid with
  | nil =>
    intro st fs0 _ hx hp hrep hwf
    simp only [runEvents]
    exact ⟨by simpa using hrep, hwf, hx, hp⟩
  | cons e es ih =>
    intro st fs0 hall hx hp hrep hwf
    simp only [List.all_cons, Bool.and_eq_true, Bool.or_eq_true] at hall
    rcases hall.1 with hm | htick
    · -- mutator step
      have hstep := mutator_step_quiet st e hm hx
      have ih' := ih (stepEvent st e).st fs0 hall.2 hstep.2.2.1
        (by rw [hstep.2.2.2]; exact hp)
        (by rw [hstep.2.1]; exact hrep) (by rw [hstep.2.1]; exact hwf)
      simp only [runEvents]
      refine ⟨?_, ih'.2.1, ih'.2.2.1, ih'.2.2.2⟩
      rw [hstep.1]
      simpa using ih'.1
    · -- tick step
      have he : e = Event.tick := by
        cases e <;> simp_all [isMutator]
      subst he
      have hsend := sendLatest_replay hrep hwf
      have hxs : (sendLatest st).1.exited = false := by
        rw [sendLatest_exited]; exact hx
      have hps : (sendLatest st).1.exitPeriodicAction = false := by
        rw [sendLatest_exitFlag]; exact hp
      have hwfs : WF (sendLatest st).1.last_sent = true := by
        rw [sendLatest_last]; exact WF_stateToJson st.state
      have ih' := ih (sendLatest st).1 (fs0 ++ (sendLatest st).2) hall.2
        hxs hps hsend hwfs
      simp only [runEvents, stepEvent]
      refine ⟨?_, ih'.2.1, ih'.2.2.1, ih'.2.2.2⟩
      simpa [List.append_assoc] using ih'.1


theorem run_from_initTick (st1 : LoggerState) (mid : List Event)
    (hmid : mid.all (fun e => isMutator e || e == Event.tick) = true)
    (hx : st1.exited = false) (hp : st1.exitPeriodicAction = false) :
    replay (runEvents st1 (Event.initTick :: (mid ++ [Event.stop]))).frames =
      some (stateToJson
        (runEvents st1 (Event.initTick :: (mid ++ [Event.stop]))).st.state) := by
  simp only [runEvents, stepEvent]
  rw [runEvents_append]
  have hrep2 : replay [Frame.value (stateToJson st1.state)] =
      some ({ st1 with last_sent := stateToJson st1.state } : LoggerState).last_sent := by
    simp [replay, replayFrom]
  have hmidrun := runEvents_mid mid
    { st1 with last_sent := stateToJson st1.state }
    [Frame.value (stateToJson st1.state)] hmid (by simpa using hx)
    (by simpa using hp) hrep2 (by simpa using WF_stateToJson st1.state)
  simp only [runEvents]
  have hnostop : ¬ ((runEvents { st1 with last_sent := stateToJson st1.state }
      mid).st.exitPeriodicAction = true) := by
    rw [hmidrun.2.2.2]
    simp
  simp only [stepEvent, if_neg hnostop]
  have hlast : ({ (runEvents { st1 with last_sent := stateToJson st1.state }
      mid).st with exitPeriodicAction := true } : LoggerState).last_sent =
      (runEvents { st1 with last_sent := stateToJson st1.state } mid).st.last_sent := rfl
  have hsend := @sendLatest_replay
    { (runEvents { st1 with last_sent := stateToJson st1.state }
      mid).st with exitPeriodicAction := true }
    ([Frame.value (stateToJson st1.state)] ++
      (runEvents { st1 with last_sent := stateToJson st1.state } mid).frames)
    (by rw [hlast]; exact hmidrun.1) (by rw [hlast]; exact hmidrun.2.1)
  rw [sendLatest_last] at hsend
  simp only [List.append_nil, ← List.append_assoc]
  rw [hsend]
  rw [sendLatest_state]

/-- C1: for every finite sequence of mutator calls and publisher ticks — the
mutators before the thread's first transmission, then the initial full-value
transmission, then mutators interleaved with periodic ticks — followed by
`stop()`, applying the first transmitted frame as a full replace and then
every subsequently transmitted patch, in transmission order, to a client-side
replica yields a tree structurally equal to the snapshot of the State Model
taken immediately after `stop()` returns. -/
theorem C1_replay_refinement (b : Bool) (es pre mid : List Event)
    (hes : es = pre ++ (Event.initTick :: (mid ++ [Event.stop])))
    (hpre : pre.all isMutator = true)
    (hmid : mid.all (fun e => isMutator e || e == Event.tick) = true) :
    replay (runEvents (initLogger b) es).frames =
      some (stateToJson (runEvents (initLogger b) es).st.state) := by
  subst hes
  rw [runEvents_append]
  have hpre_run := runEvents_mutators pre (initLogger b) hpre rfl
  rw [hpre_run.1, List.nil_append]
  exact run_from_initTick (runEvents (initLogger b) pre).st mid hmid
    hpre_run.2.2.1 hpre_run.2.2.2


theorem objGetA_actSetFields {l : List (Nat × ActivityState)} {id : Nat}
    {a : ActivityState} (h : objGetA l id = some a) (fs : List LField) :
    objGetA (actSetFields l id fs) id = some { a with fields := fs } := by
  induction l with
  | nil => simp [objGetA] at h
  | cons kv rest ih =>
    obtain ⟨k, a'⟩ := kv
    simp only [objGetA] at h
    by_cases hk : k = id
    · rw [if_pos hk] at h
      injection h with h
      simp [actSetFields, hk, objGetA, h]
    · rw [if_neg hk] at h
      simp [actSetFields, hk, objGetA, ih h]

theorem objGetA_actInsert_isSome {l : List (Nat × ActivityState)} {k : Nat}
    (id : Nat) (a : ActivityState) (h : (objGetA l k).isSome = true) :
    (objGetA (actInsert l id a) k).isSome = true := by
  induction l with
  | nil => simp [objGetA] at h
  | cons kv rest ih =>
    obtain ⟨k1, a1⟩ := kv
    by_cases h1 : id = k1
    · simpa [actInsert, h1] using h
    · by_cases h2 : id < k1
      · simp only [actInsert, if_neg h1, if_pos h2, objGetA]
        by_cases hk : id = k
        · simp [hk]
        · rw [if_neg hk]
          exact h
      · simp only [actInsert, if_neg h1, if_neg h2, objGetA]
        simp only [objGetA] at h
        by_cases hk : k1 = k
        · rwa [if_pos hk] at h ⊢
        · rw [if_neg hk] at h ⊢
          exact ih h

theorem objGetA_actComplete (l : List (Nat × ActivityState)) (id k : Nat) :
    (objGetA (actComplete l id) k).isSome = (objGetA l k).isSome := by
  induction l with
  | nil => rfl
  | cons kv rest ih =>
    obtain ⟨k1, a1⟩ := kv
    by_cases h1 : k1 = id
    · simp only [actComplete, if_pos h1, objGetA]
      by_cases hk : k1 = k <;> simp [hk]
    · simp only [actComplete, if_neg h1, objGetA]
      by_cases hk : k1 = k <;> simp [hk, ih]

theorem objGetA_actSetFields_isSome (l : List (Nat × ActivityState)) (id : Nat)
    (fs : List LField) (k : Nat) :
    (objGetA (actSetFields l id fs) k).isSome = (objGetA l k).isSome := by
  induction l with
  | nil => rfl
  | cons kv rest ih =>
    obtain ⟨k1, a1⟩ := kv
    by_cases h1 : k1 = id
    · simp only [actSetFields, if_pos h1, objGetA]
      by_cases hk : k1 = k <;> simp [hk]
    · simp only [actSetFields, if_neg h1, objGetA]
      by_cases hk : k1 = k <;> simp [hk, ih]

theorem allNatLt_mem {k : Nat} {l : List Nat} (h : allNatLt k l = true)
    {k' : Nat} (hm : k' ∈ l) : k < k' := by
  induction l with
  | nil => simp at hm
  | cons x rest ih =>
    simp only [allNatLt, Bool.and_eq_true, decide_eq_true_eq] at h
    rcases List.mem_cons.mp hm with h1 | h1
    · rw [h1]; exact h.1
    · exact ih h.2 h1

theorem objGetA_some_mem {l : List (Nat × ActivityState)} {id : Nat}
    {a : ActivityState} (h : objGetA l id = some a) : id ∈ l.map Prod.fst := by
  induction l with
  | nil => simp [objGetA] at h
  | cons kv rest ih =>
    obtain ⟨k, a'⟩ := kv
    simp only [objGetA] at h
    by_cases hk : k = id
    · simp [hk]
    · rw [if_neg hk] at h
      simp [ih h]

theorem actInsert_present {l : List (Nat × ActivityState)} {id : Nat}
    {a : ActivityState} (hs : sortedNats (l.map Prod.fst) = true)
    (h : objGetA l id = some a) (x : ActivityState) :
    actInsert l id x = l := by
  induction l with
  | nil => simp [objGetA] at h
  | cons kv rest ih =>
    obtain ⟨k, a'⟩ := kv
    simp only [List.map_cons, sortedNats, Bool.and_eq_true] at hs
    simp only [objGetA] at h
    by_cases hk : k = id
    · simp [actInsert, hk.symm]
    · rw [if_neg hk] at h
      have hmem := objGetA_some_mem h
      have hlt : k < id := allNatLt_mem hs.1 hmem
      have h1 : ¬ id = k := fun he => hk he.symm
      have h2 : ¬ id < k := by omega
      simp only [actInsert, if_neg h1, if_neg h2]
      rw [ih hs.2 h]

theorem sendLatest_of_ne {st : LoggerState}
    (hne : ¬ st.last_sent = stateToJson st.state) :
    sendLatest st = ({ st with last_sent := stateToJson st.state },
      [Frame.patch (diff st.last_sent (stateToJson st.state))]) := by
  simp [sendLatest, hne]

theorem sendLatest_of_eq {st : LoggerState}
    (heq : st.last_sent = stateToJson st.state) :
    sendLatest st = (st, []) := by
  simp [sendLatest, heq]

theorem stateToJson_ne_of_msglen {s s' : NixBuildState}
    (h : s.messages.length ≠ s'.messages.length) :
    stateToJson s ≠ stateToJson s' := by
  intro he
  simp only [stateToJson] at he
  injection he with he
  have h1 := congrArg (fun l => objGet l "messages") he
  simp only [stateToJson_messages] at h1
  injection h1 with h1
  injection h1 with h1
  have h2 := congrArg List.length h1
  simp only [List.length_map] at h2
  exact h h2

theorem logMsg_state (st : LoggerState) (s : String) :
    (stepEvent st (Event.logMsg s)).st.state =
      { st.state with messages :=
        st.state.messages ++ [{ defaultMessage with msg := s }] } := by
  simp only [stepEvent]
  by_cases hx : st.exited = true
  · rw [if_pos hx]
    exact sendLatest_state _
  · rw [if_neg hx]

theorem logErr_state (st : LoggerState) (ei : ErrorInfo) :
    (stepEvent st (Event.logErr ei)).st.state =
      { st.state with messages :=
        st.state.messages ++ [buildErrMsg st.showTrace ei] } := by
  simp only [stepEvent]
  by_cases hx : st.exited = true
  · rw [if_pos hx]
    exact sendLatest_state _
  · rw [if_neg hx]

theorem stop_noop {st : LoggerState} (h : st.exitPeriodicAction = true) :
    stepEvent st Event.stop = ⟨st, [], []⟩ := by
  simp [stepEvent, h]


/-- C2 (counterexample): after `stop()` has completed (the logger constructed,
the initial baseline transmitted, then stopped), a `startActivity` call
changes the State Model but transmits nothing — contradicting the claim that
every mutator call after `Stopped` performs an immediate synchronous flush. -/
theorem C2_counterexample :
    (runEvents (initLogger false) [Event.initTick, Event.stop]).st.exited = true ∧
    (stepEvent (runEvents (initLogger false) [Event.initTick, Event.stop]).st
      (Event.start 1 2 "b" [] 0)).frames = [] ∧
    (stepEvent (runEvents (initLogger false) [Event.initTick, Event.stop]).st
      (Event.start 1 2 "b" [] 0)).st.state ≠
      (runEvents (initLogger false) [Event.initTick, Event.stop]).st.state := by
  refine ⟨by decide, by decide, by decide⟩

/-- C2 (amended): once the Publisher has reached `Stopped`, only the two
message-recording mutators (`log` and `logEI`) perform an immediate
synchronous flush — each such call transmits exactly one patch that carries
its state change (the patch replays `last_sent` to the new snapshot, which is
recorded) — while `startActivity`, `stopActivity`, and `recordResult` issued
after `Stopped` transmit nothing. -/
theorem C2_postStop_flush_amended (st : LoggerState) (hx : st.exited = true)
    (hl : st.last_sent = stateToJson st.state) :
    (∀ s : String,
      (stepEvent st (Event.logMsg s)).frames =
        [Frame.patch (diff st.last_sent
          (stateToJson (stepEvent st (Event.logMsg s)).st.state))] ∧
      (stepEvent st (Event.logMsg s)).st.last_sent =
        stateToJson (stepEvent st (Event.logMsg s)).st.state ∧
      applyPatch st.last_sent
        (diff st.last_sent (stateToJson (stepEvent st (Event.logMsg s)).st.state)) =
        some (stateToJson (stepEvent st (Event.logMsg s)).st.state)) ∧
    (∀ ei : ErrorInfo,
      (stepEvent st (Event.logErr ei)).frames =
        [Frame.patch (diff st.last_sent
          (stateToJson (stepEvent st (Event.logErr ei)).st.state))] ∧
      (stepEvent st (Event.logErr ei)).st.last_sent =
        stateToJson (stepEvent st (Event.logErr ei)).st.state ∧
      applyPatch st.last_sent
        (diff st.last_sent (stateToJson (stepEvent st (Event.logErr ei)).st.state)) =
        some (stateToJson (stepEvent st (Event.logErr ei)).st.state)) ∧
    (∀ id ty text fields parent,
      (stepEvent st (Event.start id ty text fields parent)).frames = []) ∧
    (∀ id, (stepEvent st (Event.stopAct id)).frames = []) ∧
    (∀ id ty fields, (stepEvent st (Event.result id ty fields)).frames = []) := by
  have hmain : ∀ m : NixMessage,
      ¬ (({ st with state := { st.state with messages :=
          st.state.messages ++ [m] } } : LoggerState).last_sent =
        stateToJson ({ st with state := { st.state with messages :=
          st.state.messages ++ [m] } } : LoggerState).state) := by
    intro m he
    rw [show ({ st with state := { st.state with messages :=
        st.state.messages ++ [m] } } : LoggerState).last_sent = st.last_sent
        from rfl, hl] at he
    exact stateToJson_ne_of_msglen (by simp) he
  refine ⟨?_, ?_, fun id ty text fields parent => rfl, fun id => rfl, ?_⟩
  · intro s
    simp only [stepEvent]
    rw [if_pos (show ({ st with state := { st.state with messages :=
      st.state.messages ++ [{ defaultMessage with msg := s }] } } :
        LoggerState).exited = true from hx)]
    rw [sendLatest_of_ne (hmain _)]
    refine ⟨rfl, rfl, ?_⟩
    exact patch_diff_rt _ _ (hl ▸ WF_stateToJson st.state) (WF_stateToJson _)
  · intro ei
    simp only [stepEvent]
    rw [if_pos (show ({ st with state := { st.state with messages :=
      st.state.messages ++ [buildErrMsg st.showTrace ei] } } :
        LoggerState).exited = true from hx)]
    rw [sendLatest_of_ne (hmain _)]
    refine ⟨rfl, rfl, ?_⟩
    exact patch_diff_rt _ _ (hl ▸ WF_stateToJson st.state) (WF_stateToJson _)
  · intro id ty fields
    simp only [stepEvent]
    cases objGetA st.state.activities id <;> rfl

/-- C3: `recordResult(id, fields)` replaces the fields mapping of the matching
activity when `id` is present; when `id` is absent it leaves the State Model
(and the whole logger state) unchanged and prints a warning carrying the
result type, transmitting nothing and throwing nothing. -/
theorem C3_result_behavior (st : LoggerState) (id ty : Nat)
    (fields : List LField) :
    (objGetA st.state.activities id = none →
      (stepEvent st (Event.result id ty fields)).st = st ∧
      (stepEvent st (Event.result id ty fields)).warns = [ty] ∧
      (stepEvent st (Event.result id ty fields)).frames = []) ∧
    (∀ a : ActivityState, objGetA st.state.activities id = some a →
      (stepEvent st (Event.result id ty fields)).st.state.activities =
        actSetFields st.state.activities id fields ∧
      objGetA (stepEvent st (Event.result id ty fields)).st.state.activities id =
        some { a with fields := fields } ∧
      (stepEvent st (Event.result id ty fields)).st.state.messages =
        st.state.messages ∧
      (stepEvent st (Event.result id ty fields)).warns = []) := by
  constructor
  · intro h
    simp [stepEvent, h]
  · intro a h
    simp only [stepEvent, h]
    refine ⟨?_, objGetA_actSetFields h fields, ?_, ?_⟩ <;> trivial

/-- C4: round-trip law of the Diff Engine — for all (well-formed, i.e. with
sorted object keys, as every `nlohmann::json` value is) tree values `a` and
`b`, applying the patch `diff(a, b)` to `a` yields a tree structurally equal
to `b`. -/
theorem C4_diff_roundtrip (a b : JVal) (ha : WF a = true) (hb : WF b = true) :
    applyPatch a (diff a b) = some b :=
  patch_diff_rt a b ha hb

/-- C5: a flush transmits nothing when the current snapshot equals the
last-sent snapshot — `diff(a, a)` is empty for every `a`, a tick on unchanged
state transmits nothing, and two consecutive ticks produce at most one
transmission in total. -/
theorem C5_no_empty_transmissions :
    (∀ a : JVal, diff a a = []) ∧
    (∀ st : LoggerState, st.last_sent = stateToJson st.state →
      (stepEvent st Event.tick).frames = []) ∧
    (∀ st : LoggerState,
      ((stepEvent st Event.tick).frames ++
        (stepEvent (stepEvent st Event.tick).st Event.tick).frames).length ≤ 1) := by
  refine ⟨diff_self, ?_, ?_⟩
  · intro st h
    simp [stepEvent, sendLatest_of_eq h]
  · intro st
    by_cases heq : st.last_sent = stateToJson st.state
    · simp [stepEvent, sendLatest_of_eq heq]
    · simp only [stepEvent]
      rw [sendLatest_of_ne heq]
      have h2 : sendLatest { st with last_sent := stateToJson st.state } =
          ({ st with last_sent := stateToJson st.state }, []) :=
        sendLatest_of_eq rfl
      simp [h2]

/-- C6: the first transmission after construction, before any mutator call
has taken effect, is exactly one full value (not a patch) equal to the empty
baseline snapshot `{"activities": {}, "messages": []}`, and that value is
recorded as `last_sent`. -/
theorem C6_initial_baseline (b : Bool) :
    stepEvent (initLogger b) Event.initTick =
      ⟨{ initLogger b with
          last_sent := stateToJson { activities := [], messages := [] } },
        [Frame.value (stateToJson { activities := [], messages := [] })], []⟩ ∧
    stateToJson { activities := [], messages := [] } =
      JVal.obj [("activities", JVal.obj []), ("messages", JVal.arr [])] ∧
    (stepEvent (initLogger b) Event.initTick).st.last_sent =
      stateToJson { activities := [], messages := [] } := by
  refine ⟨rfl, by decide, rfl⟩

/-- C7: `recordMessage(structuredError)` appends the message built by `logEI`;
when the trace verbosity flag is enabled and the error carries a non-empty
trace, that message's trace holds the trace frames in reverse
(innermost-first) order relative to the error's trace list, each frame
carrying its own optional position; when the flag is disabled the message
carries no trace. -/
theorem C7_trace_reversal (flag : Bool) (ei : ErrorInfo) (st : LoggerState)
    (hst : st.showTrace = flag) :
    (stepEvent st (Event.logErr ei)).st.state.messages =
      st.state.messages ++ [buildErrMsg flag ei] ∧
    (flag = true → ei.traces ≠ [] →
      (buildErrMsg flag ei).trace = some ((ei.traces.reverse).map traceToFrame)) ∧
    (flag = false → (buildErrMsg flag ei).trace = none) ∧
    (∀ t : ETrace, traceToFrame t =
      { raw_msg := t.hint, line := t.pos.map EPos.line,
        column := t.pos.map EPos.column, file := t.pos.map EPos.file }) := by
  refine ⟨?_, ?_, ?_, fun t => rfl⟩
  · rw [logErr_state, hst]
  · intro hf hne
    have hie : ei.traces.isEmpty = false := by
      cases ht : ei.traces
      · exact absurd ht hne
      · rfl
    simp [buildErrMsg, hf, hie]
  · intro hf
    simp [buildErrMsg, hf]

/-- C8: every mutator preserves the monotonic-growth invariant — after any
mutator call, every activity id previously present is still present and the
previous message sequence is a prefix of the new one. -/
theorem C8_monotonic_growth (st : LoggerState) (e : Event)
    (hm : isMutator e = true) :
    (∀ id, (objGetA st.state.activities id).isSome = true →
      (objGetA (stepEvent st e).st.state.activities id).isSome = true) ∧
    st.state.messages <+: (stepEvent st e).st.state.messages := by
  cases e with
  | initTick => simp [isMutator] at hm
  | tick => simp [isMutator] at hm
  | stop => simp [isMutator] at hm
  | logMsg s =>
    rw [logMsg_state]
    exact ⟨fun id h => h, ⟨_, rfl⟩⟩
  | logErr ei =>
    rw [logErr_state]
    exact ⟨fun id h => h, ⟨_, rfl⟩⟩
  | start id ty text fields parent =>
    simp only [stepEvent]
    exact ⟨fun k h => objGetA_actInsert_isSome id _ h, ⟨[], by simp⟩⟩
  | stopAct id =>
    simp only [stepEvent]
    refine ⟨fun k h => ?_, ⟨[], by simp⟩⟩
    rw [objGetA_actComplete]
    exact h
  | result id ty fields =>
    simp only [stepEvent]
    cases hg : objGetA st.state.activities id with
    | some a =>
      refine ⟨fun k h => ?_, ⟨[], by simp⟩⟩
      rw [objGetA_actSetFields_isSome]
      exact h
    | none => exact ⟨fun k h => h, ⟨[], by simp⟩⟩

/-- C9: `stop()` is idempotent — once the first call has run, a second call
is a complete no-op, so running `stop(); stop()` has exactly the same
observable effect (same final state, same transmissions, same warnings) as
running `stop()` once. -/
theorem C9_stop_idempotent (st : LoggerState) :
    runEvents st [Event.stop, Event.stop] = runEvents st [Event.stop] := by
  have h1 : (stepEvent st Event.stop).st.exitPeriodicAction = true := by
    simp only [stepEvent]
    by_cases hp : st.exitPeriodicAction = true
    · rw [if_pos hp]
      exact hp
    · rw [if_neg hp]
      show (sendLatest { st with exitPeriodicAction := true }).1.exitPeriodicAction = true
      rw [sendLatest_exitFlag]
  have h2 := stop_noop h1
  simp [runEvents, h2]

/-- C10: calling `startActivity` again for an id already present leaves the
previously stored activity (and the whole activity map, and the rest of the
logger state) completely unchanged, transmitting nothing: `std::map::insert`
does not overwrite an existing entry. -/
theorem C10_start_existing_id (st : LoggerState) (id ty : Nat) (text : String)
    (fields : List LField) (parent : Nat) (a : ActivityState)
    (hs : sortedNats (st.state.activities.map Prod.fst) = true)
    (ha : objGetA st.state.activities id = some a) :
    (stepEvent st (Event.start id ty text fields parent)).st.state.activities =
      st.state.activities ∧
    (stepEvent st (Event.start id ty text fields parent)).st = st ∧
    (stepEvent st (Event.start id ty text fields parent)).frames = [] := by
  have hins := actInsert_present hs ha ⟨false, ty, text, fields, parent⟩
  refine ⟨by simp [stepEvent, hins], ?_, rfl⟩
  simp [stepEvent, hins]


theorem C1_replay_refinement_witness :
    replay (runEvents (initLogger false)
      ([Event.start 1 2 "a" [LField.fInt 5] 0, Event.logMsg "hi"] ++
        (Event.initTick :: ([Event.logMsg "m", Event.tick,
          Event.result 9 3 [], Event.stopAct 1] ++ [Event.stop])))).frames =
    some (stateToJson (runEvents (initLogger false)
      ([Event.start 1 2 "a" [LField.fInt 5] 0, Event.logMsg "hi"] ++
        (Event.initTick :: ([Event.logMsg "m", Event.tick,
          Event.result 9 3 [], Event.stopAct 1] ++ [Event.stop])))).st.state) :=
  C1_replay_refinement false _
    [Event.start 1 2 "a" [LField.fInt 5] 0, Event.logMsg "hi"]
    [Event.logMsg "m", Event.tick, Event.result 9 3 [], Event.stopAct 1]
    rfl (by decide) (by decide)

theorem C2_postStop_flush_amended_witness :
    (stepEvent (runEvents (initLogger false) [Event.initTick, Event.stop]).st
      (Event.logMsg "late")).frames =
      [Frame.patch (diff
        (runEvents (initLogger false) [Event.initTick, Event.stop]).st.last_sent
        (stateToJson (stepEvent
          (runEvents (initLogger false) [Event.initTick, Event.stop]).st
          (Event.logMsg "late")).st.state))] :=
  ((C2_postStop_flush_amended
    (runEvents (initLogger false) [Event.initTick, Event.stop]).st
    (by decide) (by decide)).1 "late").1

theorem C3_result_behavior_witness :
    ((stepEvent (⟨⟨[(1, ⟨false, 2, "a", [], 0⟩)], []⟩, JVal.null, false, false,
        false⟩ : LoggerState) (Event.result 99 7 [LField.fInt 1])).st =
      (⟨⟨[(1, ⟨false, 2, "a", [], 0⟩)], []⟩, JVal.null, false, false,
        false⟩ : LoggerState) ∧
     (stepEvent (⟨⟨[(1, ⟨false, 2, "a", [], 0⟩)], []⟩, JVal.null, false, false,
        false⟩ : LoggerState) (Event.result 99 7 [LField.fInt 1])).warns = [7] ∧
     (stepEvent (⟨⟨[(1, ⟨false, 2, "a", [], 0⟩)], []⟩, JVal.null, false, false,
        false⟩ : LoggerState) (Event.result 99 7 [LField.fInt 1])).frames = []) ∧
    objGetA (stepEvent (⟨⟨[(1, ⟨false, 2, "a", [], 0⟩)], []⟩, JVal.null, false,
        false, false⟩ : LoggerState)
      (Event.result 1 7 [LField.fInt 1])).st.state.activities 1 =
      some ⟨false, 2, "a", [LField.fInt 1], 0⟩ :=
  ⟨(C3_result_behavior _ 99 7 [LField.fInt 1]).1 (by decide),
   ((C3_result_behavior _ 1 7 [LField.fInt 1]).2 ⟨false, 2, "a", [], 0⟩
     (by decide)).2.1⟩

theorem C4_diff_roundtrip_witness :
    WF (JVal.obj [("a", JVal.num 1),
      ("b", JVal.arr [JVal.num 1, JVal.num 2, JVal.num 3])]) = true ∧
    WF (JVal.obj [("b", JVal.arr [JVal.num 1, JVal.num 5]),
      ("c", JVal.null)]) = true ∧
    applyPatch (JVal.obj [("a", JVal.num 1),
        ("b", JVal.arr [JVal.num 1, JVal.num 2, JVal.num 3])])
      (diff (JVal.obj [("a", JVal.num 1),
          ("b", JVal.arr [JVal.num 1, JVal.num 2, JVal.num 3])])
        (JVal.obj [("b", JVal.arr [JVal.num 1, JVal.num 5]),
          ("c", JVal.null)])) =
      some (JVal.obj [("b", JVal.arr [JVal.num 1, JVal.num 5]),
        ("c", JVal.null)]) :=
  ⟨by decide, by decide,
   C4_diff_roundtrip _ _ (by decide) (by decide)⟩

theorem C5_no_empty_transmissions_witness :
    diff (stateToJson ⟨[], []⟩) (stateToJson ⟨[], []⟩) = [] ∧
    (stepEvent (⟨⟨[], []⟩, stateToJson ⟨[], []⟩, false, false, false⟩ :
      LoggerState) Event.tick).frames = [] ∧
    ((stepEvent (⟨⟨[], []⟩, JVal.null, false, false, false⟩ : LoggerState)
        Event.tick).frames ++
      (stepEvent (stepEvent (⟨⟨[], []⟩, JVal.null, false, false, false⟩ :
        LoggerState) Event.tick).st Event.tick).frames).length ≤ 1 :=
  ⟨C5_no_empty_transmissions.1 _,
   C5_no_empty_transmissions.2.1 _ (by decide),
   C5_no_empty_transmissions.2.2 _⟩

theorem C7_trace_reversal_witness :
    (stepEvent (initLogger true) (Event.logErr
      ⟨3, "boom", some ⟨4, 2, "f.nix"⟩,
        [⟨"t1", none⟩, ⟨"t2", some ⟨7, 1, "g.nix"⟩⟩]⟩)).st.state.messages =
      (initLogger true).state.messages ++
        [buildErrMsg true ⟨3, "boom", some ⟨4, 2, "f.nix"⟩,
          [⟨"t1", none⟩, ⟨"t2", some ⟨7, 1, "g.nix"⟩⟩]⟩] ∧
    (buildErrMsg true ⟨3, "boom", some ⟨4, 2, "f.nix"⟩,
        [⟨"t1", none⟩, ⟨"t2", some ⟨7, 1, "g.nix"⟩⟩]⟩).trace =
      some (([(⟨"t1", none⟩ : ETrace), ⟨"t2", some ⟨7, 1, "g.nix"⟩⟩].reverse).map
        traceToFrame) :=
  ⟨(C7_trace_reversal true _ (initLogger true) rfl).1,
   (C7_trace_reversal true _ (initLogger true) rfl).2.1 rfl (by decide)⟩

theorem C8_monotonic_growth_witness :
    (objGetA (stepEvent (⟨⟨[(1, ⟨false, 2, "a", [], 0⟩)],
        [{ defaultMessage with msg := "m0" }]⟩, JVal.null, false, false,
        false⟩ : LoggerState) (Event.stopAct 1)).st.state.activities 1).isSome =
      true ∧
    (⟨⟨[(1, ⟨false, 2, "a", [], 0⟩)],
        [{ defaultMessage with msg := "m0" }]⟩, JVal.null, false, false,
        false⟩ : LoggerState).state.messages <+:
      (stepEvent (⟨⟨[(1, ⟨false, 2, "a", [], 0⟩)],
        [{ defaultMessage with msg := "m0" }]⟩, JVal.null, false, false,
        false⟩ : LoggerState) (Event.stopAct 1)).st.state.messages :=
  ⟨(C8_monotonic_growth _ (Event.stopAct 1) (by decide)).1 1 (by decide),
   (C8_monotonic_growth _ (Event.stopAct 1) (by decide)).2⟩

theorem C10_start_existing_id_witness :
    (stepEvent (⟨⟨[(1, ⟨false, 2, "a", [], 0⟩)], []⟩, JVal.null, false, false,
        false⟩ : LoggerState)
      (Event.start 1 9 "z" [LField.fStr "x"] 4)).st.state.activities =
      (⟨⟨[(1, ⟨false, 2, "a", [], 0⟩)], []⟩, JVal.null, false, false,
        false⟩ : LoggerState).state.activities ∧
    (stepEvent (⟨⟨[(1, ⟨false, 2, "a", [], 0⟩)], []⟩, JVal.null, false, false,
        false⟩ : LoggerState) (Event.start 1 9 "z" [LField.fStr "x"] 4)).st =
      (⟨⟨[(1, ⟨false, 2, "a", [], 0⟩)], []⟩, JVal.null, false, false,
        false⟩ : LoggerState) ∧
    (stepEvent (⟨⟨[(1, ⟨false, 2, "a", [], 0⟩)], []⟩, JVal.null, false, false,
        false⟩ : LoggerState)
      (Event.start 1 9 "z" [LField.fStr "x"] 4)).frames = [] :=
  C10_start_existing_id _ 1 9 "z" [LField.fStr "x"] 4 ⟨false, 2, "a", [], 0⟩
    (by decide) (by decide)

end NixDiff
